import Mathlib

/-!
Verification development for the MAXI text-format core
(schema parser, inheritance resolver, record parser, value coercion, serializer).
Definitions are shallow embeddings of the JavaScript sources:
  src/internal/schema-parser.js, src/internal/record-parser.js,
  src/core/types.js, src/core/errors.js and the serializer module.
JS strings are modelled as `String`/`List Char`, JS numbers as `Rat`
(exact in the ranges exercised here), `undefined` as `Option.none`,
thrown `MaxiError`s as `Except` errors carrying the stable error code.
-/

set_option maxHeartbeats 1000000

namespace Maxi

/-- Error codes from src/core/errors.js (the subset reachable in the embedded slice),
plus `outOfFuel`, used only when the fuel of a fuel-bounded recursion runs out. -/
inductive ErrCode where
  | unsupportedVersion
  | duplicateType
  | unknownType
  | unknownDirective
  | invalidSyntax
  | schemaMismatch
  | circularInheritance
  | missingRequiredField
  | undefinedParent
  | constraintSyntax
  | schemaLoad
  | outOfFuel
deriving DecidableEq, Repr

/-- Whitespace characters recognised by `fastTrim` in record-parser.js: SP, HTAB, LF, CR. -/
def isWsJs (c : Char) : Bool :=
  c = ' ' || c = '\t' || c = '\n' || c = '\r'

/-- `fastTrim` from record-parser.js: strip the four ASCII whitespace kinds from both ends. -/
def fastTrim (l : List Char) : List Char :=
  ((l.dropWhile isWsJs).reverse.dropWhile isWsJs).reverse

/-- Whitespace for JavaScript `String.prototype.trim` (ASCII part: adds FF and VT). -/
def isWsFull (c : Char) : Bool :=
  isWsJs c || c = '\x0b' || c = '\x0c'

/-- JavaScript `trim()` on the ASCII whitespace set. -/
def jsTrim (l : List Char) : List Char :=
  ((l.dropWhile isWsFull).reverse.dropWhile isWsFull).reverse

/-- JavaScript `trimEnd()`. -/
def jsTrimEnd (l : List Char) : List Char :=
  (l.reverse.dropWhile isWsFull).reverse

/-- `trim()` lifted to `String`. -/
def jsTrimS (s : String) : String :=
  String.mk (jsTrim s.data)

/-- Scanner state shared by the top-level splitters: three bracket depths
(`Int`, since the record-parser variant decrements without clamping),
the in-double-quote flag and the backslash-escape flag. -/
structure SplitSt where
  paren : Int := 0
  bracket : Int := 0
  brace : Int := 0
  inString : Bool := false
  escapeNext : Bool := false
deriving DecidableEq, Repr

/-- Depth bookkeeping of `RecordParser.splitTopLevel` (record-parser.js): no clamping. -/
def bumpDepths (c : Char) (st : SplitSt) : SplitSt :=
  if c = '(' then { st with paren := st.paren + 1 }
  else if c = ')' then { st with paren := st.paren - 1 }
  else if c = '[' then { st with bracket := st.bracket + 1 }
  else if c = ']' then { st with bracket := st.bracket - 1 }
  else if c = '{' then { st with brace := st.brace + 1 }
  else if c = '}' then { st with brace := st.brace - 1 }
  else st

/-- Depth bookkeeping of `SchemaParser.splitTopLevel` (schema-parser.js): clamped at zero. -/
def bumpDepthsClamped (c : Char) (st : SplitSt) : SplitSt :=
  if c = '(' then { st with paren := st.paren + 1 }
  else if c = ')' then { st with paren := max 0 (st.paren - 1) }
  else if c = '[' then { st with bracket := st.bracket + 1 }
  else if c = ']' then { st with bracket := max 0 (st.bracket - 1) }
  else if c = '{' then { st with brace := st.brace + 1 }
  else if c = '}' then { st with brace := max 0 (st.brace - 1) }
  else st

/-- `RecordParser.splitTopLevel` (record-parser.js, lines 297-343).
The JS code records split indices and slices; this accumulates the current part
(`acc`, reversed) instead, which yields the same parts: every character except a
top-level delimiter goes to the current part, a top-level delimiter closes it. -/
def splitTopLevelRec (delim : Char) : List Char → SplitSt → List Char → List (List Char)
  | [], _, acc => [acc.reverse]
  | c :: rest, st, acc =>
    if st.escapeNext then
      splitTopLevelRec delim rest { st with escapeNext := false } (c :: acc)
    else if st.inString then
      if c = '\\' then splitTopLevelRec delim rest { st with escapeNext := true } (c :: acc)
      else if c = '"' then splitTopLevelRec delim rest { st with inString := false } (c :: acc)
      else splitTopLevelRec delim rest st (c :: acc)
    else if c = '"' then
      splitTopLevelRec delim rest { st with inString := true } (c :: acc)
    else
      let st' := bumpDepths c st
      if c = delim ∧ st'.paren = 0 ∧ st'.bracket = 0 ∧ st'.brace = 0 then
        acc.reverse :: splitTopLevelRec delim rest st' []
      else
        splitTopLevelRec delim rest st' (c :: acc)

/-- `SchemaParser.splitTopLevel` (schema-parser.js, lines 481-536): same scan with
clamped depths and character-accumulation (as in the source). -/
def splitTopLevelSch (delim : Char) : List Char → SplitSt → List Char → List (List Char)
  | [], _, acc => [acc.reverse]
  | c :: rest, st, acc =>
    if st.escapeNext then
      splitTopLevelSch delim rest { st with escapeNext := false } (c :: acc)
    else if st.inString then
      if c = '\\' then splitTopLevelSch delim rest { st with escapeNext := true } (c :: acc)
      else if c = '"' then splitTopLevelSch delim rest { st with inString := false } (c :: acc)
      else splitTopLevelSch delim rest st (c :: acc)
    else if c = '"' then
      splitTopLevelSch delim rest { st with inString := true } (c :: acc)
    else
      let st' := bumpDepthsClamped c st
      if c = delim ∧ st'.paren = 0 ∧ st'.bracket = 0 ∧ st'.brace = 0 then
        acc.reverse :: splitTopLevelSch delim rest st' []
      else
        splitTopLevelSch delim rest st' (c :: acc)

/-- Joining parts with the delimiter re-inserted between consecutive parts
(the inverse operation the losslessness claim talks about). -/
def joinParts (d : Char) : List (List Char) → List Char
  | [] => []
  | [p] => p
  | p :: q :: ps => p ++ d :: joinParts d (q :: ps)

/-- Record-parser splitter lifted to `String`, starting from a fresh scanner state. -/
def splitTopLevelStr (s : String) (d : Char) : List String :=
  (splitTopLevelRec d s.data {} []).map String.mk

/-! ## Data model (src/core/types.js) -/

/-- Parsed constraint (src/core/types.js `ParsedConstraint`).  The payloads of the
variants not inspected by any embedded operation are kept as raw strings
(the record phase and the serializer only ever look at the variant tag). -/
inductive Constraint where
  | required
  | id
  | comparison (op : String) (value : String)
  | pattern (value : String)
  | mime (value : List String)
  | exactLength (n : Nat)
  | decimalPrecision (value : String)
deriving DecidableEq, Repr

/-- `MaxiFieldDef`.  JS `undefined` is `none`; schema-parser defaults are always
strings.  The source's annotation field is here called `annot`. -/
structure FieldDef where
  name : String
  typeExpr : Option String := none
  annot : Option String := none
  constraints : List Constraint := []
  defaultValue : Option String := none
deriving DecidableEq, Repr

/-- `MaxiFieldDef.isRequired`: has a `required` constraint. -/
def FieldDef.isRequired (f : FieldDef) : Bool :=
  f.constraints.any fun c => match c with | .required => true | _ => false

/-- `MaxiTypeDef` (resolution bookkeeping lives in the resolver state below). -/
structure TypeDef where
  aliasName : String
  name : Option String := none
  parents : List String := []
  fields : List FieldDef := []
deriving DecidableEq, Repr

/-- `MaxiTypeDef.getIdField` (src/core/types.js lines 92-101): first field with an
explicit `id` constraint, else the first field literally named `id`. -/
def TypeDef.getIdField (td : TypeDef) : Option FieldDef :=
  match td.fields.find? (fun f => f.constraints.any fun c =>
      match c with | .id => true | _ => false) with
  | some f => some f
  | none => td.fields.find? (fun f => f.name = "id")

/-- `MaxiSchema`.  The JS `Map` of types is modelled as an insertion-ordered list;
the parser guarantees alias uniqueness (duplicate aliases are fatal), so
first-match lookup coincides with `Map.get`. -/
structure Schema where
  version : String := "1.0.0"
  mode : String := "lax"
  imports : List String := []
  types : List TypeDef := []
deriving DecidableEq, Repr

/-- `MaxiSchema.getType`. -/
def Schema.getType (sch : Schema) (a : String) : Option TypeDef :=
  sch.types.find? (fun td => td.aliasName = a)

/-- `MaxiSchema.hasType`. -/
def Schema.hasType (sch : Schema) (a : String) : Bool :=
  (sch.getType a).isSome

/-- `resolveTypeAlias` installed by `SchemaParser.buildNameIndex`: an existing alias
resolves to itself, otherwise the alias of the first type with that display name;
a falsy argument (empty string) and a miss both give `none` (JS `null`). -/
def Schema.resolveTypeAlias (sch : Schema) (x : String) : Option String :=
  if x = "" then none
  else if sch.hasType x then some x
  else match sch.types.find? (fun td => td.name = some x) with
       | some td => some td.aliasName
       | none => none

/-- Runtime values produced by the coercion engine.  JS numbers are modelled as
rationals (exact for the decimal literals handled here); a parsed inline object
with a resolved type is `obj` (field-name keyed), an unresolved one is `anon`
(the source's `{ values: [...] }` wrapper). -/
inductive Value where
  | null
  | str (s : String)
  | num (q : Rat)
  | bool (b : Bool)
  | arr (elems : List Value)
  | map (entries : List (String × Value))
  | obj (fields : List (String × Value))
  | anon (vs : List Value)
deriving Repr

/-- `MaxiRecord`. -/
structure MaxiRecord where
  aliasName : String
  values : List Value
  lineNumber : Nat
deriving Repr

/-- Parser computations: accumulated warnings (modelled by their stable codes, the
messages and line numbers carry no extra information for the claims) over fatal
`MaxiError`s (modelled by their codes). -/
abbrev PM (α : Type) := StateT (List ErrCode) (Except ErrCode) α

/-- `result.addWarning`. -/
def addWarning (w : ErrCode) : PM Unit :=
  fun ws => .ok ((), ws ++ [w])

/-! ## String helpers shared by serializer and parsers -/

/-- JavaScript global single-character `String.replace`: every occurrence of `c`
becomes the replacement `r` (this is exactly a character-wise flat map). -/
def replaceChar (c : Char) (r : List Char) (l : List Char) : List Char :=
  l.flatMap fun x => if x = c then r else [x]

/-- JavaScript global two-character `String.replace` for a pattern
backslash-then-`p`, replaced by the single character `r`; the scan resumes after
each match, as the JS regex engine does. -/
def replacePair (p r : Char) : List Char → List Char
  | [] => []
  | [c] => [c]
  | a :: b :: rest =>
    if a = '\\' ∧ b = p then r :: replacePair p r rest
    else a :: replacePair p r (b :: rest)

/-- Serializer `escapeString`: escape backslash, quote, LF, CR, TAB — in that
order of passes. -/
def escapeString (l : List Char) : List Char :=
  replaceChar '\t' ['\\', 't'] <|
    replaceChar '\r' ['\\', 'r'] <|
      replaceChar '\n' ['\\', 'n'] <|
        replaceChar '"' ['\\', '"'] <|
          replaceChar '\\' ['\\', '\\'] l

/-- The unescape passes shared by `RecordParser.parseQuotedString` and the schema
parser's `unescapeString`: `\n`, `\r`, `\t`, `\"`, `\\` — in that order. -/
def unescapeString (l : List Char) : List Char :=
  replacePair '\\' '\\' <|
    replacePair '"' '"' <|
      replacePair 't' '\t' <|
        replacePair 'r' '\r' <|
          replacePair 'n' '\n' l

/-- `RecordParser.parseQuotedString`: strip the surrounding quotes
(`slice(1,-1)`), then unescape. -/
def parseQuotedStringL (l : List Char) : List Char :=
  unescapeString ((l.drop 1).dropLast)

/-- Serializer `needsQuoting`: the string contains one of the structural
characters or whitespace. -/
def quotingTrigger (c : Char) : Bool :=
  c = '|' || c = '(' || c = ')' || c = '[' || c = ']' ||
    c = '{' || c = '}' || c = '~' || c = ',' || c = ':' || isWsFull c

/-- Serializer `needsQuoting`. -/
def needsQuoting (l : List Char) : Bool :=
  l.any quotingTrigger

/-- Serializer-side rendering of a string value (`dumpValue`, string case):
quote and escape exactly when `needsQuoting` holds. -/
def dumpStringValue (l : List Char) : List Char :=
  if needsQuoting l then '"' :: (escapeString l ++ ['"']) else l

/-! ## Number scanning (record-parser.js) -/

/-- Numeric value of a digit list (the usual base-10 fold). -/
def digitsVal (l : List Char) : Nat :=
  l.foldl (fun a c => a * 10 + (c.toNat - 48)) 0

/-- JS `parseInt(s,10)` on the tokens it is applied to (optional minus, then the
leading digit run). -/
def parseIntJs (l : List Char) : Int :=
  match l with
  | '-' :: rest => - (digitsVal (rest.takeWhile Char.isDigit) : Int)
  | _ => (digitsVal (l.takeWhile Char.isDigit) : Int)

/-- JS `parseFloat` on detector-approved tokens (optional minus, digits, optional
fraction), modelled exactly as a rational. -/
def parseFloatJs (l : List Char) : Rat :=
  match l with
  | '-' :: rest => - parseFloatPos rest
  | _ => parseFloatPos l
where
  parseFloatPos (l : List Char) : Rat :=
    let ip := l.takeWhile Char.isDigit
    match l.drop ip.length with
    | '.' :: fracRest =>
      let frac := fracRest.takeWhile Char.isDigit
      (digitsVal ip : Rat) + (digitsVal frac : Rat) / ((10 : Rat) ^ frac.length)
    | _ => (digitsVal ip : Rat)

/-- `RecordParser.detectNumberKind` (record-parser.js lines 844-884):
0 = not numeric, 1 = int-like, 2 = decimal-like, 3 = int with a trailing dot. -/
def detectNumberKind (l : List Char) : Nat :=
  match l with
  | [] => 0
  | c0 :: rest =>
    if c0 = '-' ∧ rest = [] then 0
    else
      let body := if c0 = '-' then rest else c0 :: rest
      match body with
      | [] => 0
      | d :: _ =>
        if ¬ d.isDigit then 0
        else
          match body.dropWhile Char.isDigit with
          | [] => 1
          | '.' :: frac =>
            if frac = [] then 3
            else if frac.all Char.isDigit then 2
            else 0
          | _ => 0

/-- `RecordParser.looksLikeBase64` body scan: base64 alphabet then only `=`,
with at most two padding characters. -/
def b64Go : List Char → Nat → Bool
  | [], pad => pad ≤ 2
  | c :: rest, pad =>
    if c = '=' then b64Go rest (pad + 1)
    else if pad > 0 then false
    else if c.isAlpha || c.isDigit || c = '+' || c = '/' then b64Go rest pad
    else false

/-- `RecordParser.looksLikeBase64`. -/
def looksLikeBase64 (l : List Char) : Bool :=
  if l = [] then false else b64Go l 0

/-! ## Type-expression helpers (record-parser.js) -/

/-- JS `String.split` with a single-character separator. -/
def splitChar (d : Char) : List Char → List (List Char)
  | [] => [[]]
  | c :: rest =>
    if c = d then [] :: splitChar d rest
    else
      match splitChar d rest with
      | p :: ps => (c :: p) :: ps
      | [] => [[c]]

/-- The regex `^(.+)\[\]\s*$` shared by `getArrayElementType`,
`getInlineObjectTypeAlias` and the serializer: strip trailing whitespace, require
a final `[]` with a non-empty prefix, return the prefix. -/
def arrMatchBase (t : List Char) : Option (List Char) :=
  let t2 := jsTrimEnd t
  if 3 ≤ t2.length ∧ t2.drop (t2.length - 2) = ['[', ']'] then
    some (t2.take (t2.length - 2))
  else none

/-- `RecordParser.getArrayElementType`: `"int[]" -> "int"`, `none` otherwise. -/
def getArrayElementType (typeExpr : Option String) : Option String :=
  typeExpr.bind fun te =>
    match arrMatchBase (jsTrim te.data) with
    | none => none
    | some b =>
      let b2 := jsTrim b
      if b2 = [] then none else some (String.mk b2)

/-- Inner text of the regex `^map\s*<\s*(.+)\s*>\s*$` applied to an already
trimmed type expression (the group is greedy, so it runs to the last `>` and
keeps interior whitespace except the leading run). -/
def mapAngleInner (t : List Char) : Option (List Char) :=
  if t.take 3 = ['m', 'a', 'p'] then
    match (t.drop 3).dropWhile isWsFull with
    | '<' :: rest =>
      if rest ≠ [] ∧ rest.getLast? = some '>' then
        let mid := rest.dropLast
        if mid = [] then none
        else
          let ld := mid.dropWhile isWsFull
          some (if ld = [] then [mid.getLastD ' '] else ld)
      else none
    | _ => none
  else none

/-- The comma splitter inside `getMapValueType`: top-level with respect to
`<`/`>` depth (clamped) and double quotes, where a quote closes only when the
previous character is not a backslash; parts are trimmed, interior empties kept,
a trailing empty dropped. -/
def mapParamSplit : List Char → Option Char → Int → Bool → List Char →
    List (List Char)
  | [], _, _, _, cur =>
    if jsTrim cur.reverse = [] then [] else [jsTrim cur.reverse]
  | ch :: rest, prev, depth, inString, cur =>
    if inString then
      let ins := ¬ (ch = '"' ∧ prev ≠ some '\\')
      mapParamSplit rest (some ch) depth ins (ch :: cur)
    else if ch = '"' then
      mapParamSplit rest (some ch) depth true (ch :: cur)
    else
      let depth' := if ch = '<' then depth + 1
        else if ch = '>' then max 0 (depth - 1) else depth
      if ch = ',' ∧ depth' = 0 then
        jsTrim cur.reverse :: mapParamSplit rest (some ch) depth' inString []
      else
        mapParamSplit rest (some ch) depth' inString (ch :: cur)

/-- `RecordParser.getMapValueType`: the value-type parameter of a `map<...>`
type expression (sole parameter, or the last of several), `none` otherwise. -/
def getMapValueType (typeExpr : Option String) : Option String :=
  match typeExpr with
  | none => none
  | some te =>
    let t := jsTrim te.data
    if t = ['m', 'a', 'p'] then none
    else
      match mapAngleInner t with
      | none => none
      | some inside =>
        let parts := mapParamSplit inside none 0 false []
        match parts.getLast? with
        | none => none
        | some p => if p = [] then none else some (String.mk p)

/-- The regex test `/^map\s*</` in `getInlineObjectTypeAlias`. -/
def startsWithMapAngle (b : List Char) : Bool :=
  b.take 3 = ['m', 'a', 'p'] ∧ ((b.drop 3).dropWhile isWsFull).head? = some '<'

/-- `RecordParser.getInlineObjectTypeAlias`: resolve a field type expression to
the alias of the schema type an inline object should be coerced against. -/
def getInlineObjectTypeAlias (sch : Schema) (typeExpr : Option String) :
    Option String :=
  match typeExpr with
  | none => none
  | some te =>
    let t := jsTrim te.data
    let base := match arrMatchBase t with
      | some b => jsTrim b
      | none => t
    if startsWithMapAngle base then
      match getMapValueType (some (String.mk base)) with
      | none => none
      | some mv =>
        let rs := String.mk (jsTrim mv.data)
        some ((sch.resolveTypeAlias rs).getD rs)
    else if (String.mk base) ∈ ["str", "int", "decimal", "bool", "bytes", "map"] then
      none
    else
      some ((sch.resolveTypeAlias (String.mk base)).getD (String.mk base))

/-- The nearly identical comma splitters of `parseArray` and `parseMap`: one
shared depth counter over all three bracket kinds, string toggling on quotes
with backslash escapes; parts at top-level commas are kept (trimmed, even when
empty), the final part only when its trimmed form is non-empty. -/
def commaSplitNested : List Char → Int → Bool → Bool → List Char →
    List (List Char)
  | [], _, _, _, cur =>
    if jsTrim cur.reverse = [] then [] else [jsTrim cur.reverse]
  | c :: rest, depth, inString, escapeNext, cur =>
    if escapeNext then
      commaSplitNested rest depth inString false (c :: cur)
    else if c = '\\' ∧ inString then
      commaSplitNested rest depth inString true (c :: cur)
    else if c = '"' then
      commaSplitNested rest depth (¬ inString) escapeNext (c :: cur)
    else if ¬ inString then
      let depth' := if c = '(' ∨ c = '[' ∨ c = '{' then depth + 1
        else if c = ')' ∨ c = ']' ∨ c = '}' then depth - 1 else depth
      if c = ',' ∧ depth' = 0 then
        jsTrim cur.reverse :: commaSplitNested rest depth' inString escapeNext []
      else
        commaSplitNested rest depth' inString escapeNext (c :: cur)
    else
      commaSplitNested rest depth inString escapeNext (c :: cur)

/-- The colon scanner of `parseMapEntry`: index of the first `:` outside strings
and nested structures (single clamped depth counter). -/
def findMapColon : List Char → Int → Bool → Bool → Nat → Option Nat
  | [], _, _, _, _ => none
  | c :: rest, depth, inString, escapeNext, i =>
    if escapeNext then findMapColon rest depth inString false (i + 1)
    else if inString then
      if c = '\\' then findMapColon rest depth inString true (i + 1)
      else if c = '"' then findMapColon rest depth false escapeNext (i + 1)
      else findMapColon rest depth inString escapeNext (i + 1)
    else if c = '"' then findMapColon rest depth true escapeNext (i + 1)
    else
      let depth' := if c = '(' ∨ c = '[' ∨ c = '{' then depth + 1
        else if c = ')' ∨ c = ']' ∨ c = '}' then max 0 (depth - 1) else depth
      if c = ':' ∧ depth' = 0 then some i
      else findMapColon rest depth' inString escapeNext (i + 1)

/-- JS `String(x)` on runtime values (array join as in JS; non-integer number
rendering approximated, it is unreachable for the inputs considered here). -/
def jsToString : Value → String
  | .null => "null"
  | .str s => s
  | .bool b => if b then "true" else "false"
  | .num q => if q.den = 1 then toString q.num else toString q
  | .arr vs => String.intercalate "," (vs.attach.map fun x => jsToString x.1)
  | .map _ => "[object Object]"
  | .obj _ => "[object Object]"
  | .anon _ => "[object Object]"
decreasing_by
  simp_wf
  have := List.sizeOf_lt_of_mem x.2
  omega

/-- JS object insertion semantics `m[k] = v`: overwrite in place, else append. -/
def assocSet (m : List (String × Value)) (k : String) (v : Value) :
    List (String × Value) :=
  if m.any (fun p => p.1 = k) then
    m.map (fun p => if p.1 = k then (k, v) else p)
  else m ++ [(k, v)]

/-- The lightweight field-shaped objects handed to `parseFieldValue` (either a
`MaxiFieldDef` or an ad-hoc `{ typeExpr }` object in the source). -/
structure FieldRef where
  typeExpr : Option String := none
  annot : Option String := none
  defaultValue : Option String := none
deriving DecidableEq, Repr

/-- View of a full field definition as a `FieldRef`. -/
def FieldDef.toRef (f : FieldDef) : FieldRef :=
  ⟨f.typeExpr, f.annot, f.defaultValue⟩

/-- Back-fill of one record position (`parseSingleRecord`, lines 226-237 and the
same logic in `parseInlineObject`): an absent or empty-string value becomes the
field's default if declared, else null. -/
def backfillValue (f : FieldDef) (v : Option Value) : Value :=
  match v with
  | none => (f.defaultValue.map Value.str).getD .null
  | some (.str "") => (f.defaultValue.map Value.str).getD .null
  | some v => v

/-- `value === null` in the back-fill validation. -/
def Value.isNull : Value → Bool
  | .null => true
  | _ => false

/-! ## Value coercion engine (record-parser.js)

All functions are fuel-bounded (the fuel only ever runs out on adversarially
deep nesting; every theorem quantifies over the fuel or fixes a generous one). -/

mutual

/-- `RecordParser.parseFieldValue` (record-parser.js lines 379-488). -/
def parseFieldValue (sch : Schema) : Nat → String → Option FieldRef → PM Value
  | 0, _, _ => throw .outOfFuel
  | fuel + 1, valueStr, fd =>
    if valueStr = "" then
      match fd.bind (·.defaultValue) with
      | some d => pure (.str d)
      | none => pure .null
    else if valueStr = "~" then pure .null
    else
      match valueStr.data with
      | [] => pure .null
      | c0 :: _ =>
        let l := valueStr.data
        let cLast := l.getLastD ' '
        if c0 = '[' ∧ cLast = ']' then parseArray sch fuel valueStr fd
        else if c0 = '{' ∧ cLast = '}' then parseMap sch fuel valueStr fd
        else if c0 = '(' ∧ cLast = ')' then
          -- the source's `isInlineSimple` fast path calls the same function
          parseInlineObject sch fuel valueStr fd
        else if c0 = '"' ∧ cLast = '"' then
          pure (.str (String.mk (parseQuotedStringL l)))
        else
          let typeExpr := (fd.bind (·.typeExpr)).getD "str"
          let annot := fd.bind (·.annot)
          if sch.mode ≠ "strict" ∧ typeExpr = "bytes" ∧ annot = some "base64" then
            if looksLikeBase64 l then
              let m := l.length % 4
              if m ≠ 0 then
                pure (.str (String.mk (l ++
                  (if m = 1 then ['=', '=', '='] else if m = 2 then ['=', '='] else ['=']))))
              else pure (.str valueStr)
            else pure (.str valueStr)
          else if typeExpr = "bool" then
            if valueStr = "1" ∨ valueStr = "true" then pure (.bool true)
            else if valueStr = "0" ∨ valueStr = "false" then pure (.bool false)
            else pure (.str valueStr)
          else
            let nk := detectNumberKind l
            if typeExpr = "int" then
              if nk = 1 then pure (.num (parseIntJs l : Int))
              else pure (.str valueStr)
            else if typeExpr = "decimal" then
              if nk = 3 then pure (.num (parseIntJs l.dropLast : Int))
              else if nk = 1 ∨ nk = 2 then pure (.num (parseFloatJs l))
              else pure (.str valueStr)
            else if sch.mode ≠ "strict" then
              if nk = 1 then pure (.num (parseIntJs l : Int))
              else if nk = 2 then pure (.num (parseFloatJs l))
              else if nk = 3 then pure (.num (parseIntJs l.dropLast : Int))
              else pure (.str valueStr)
            else pure (.str valueStr)

/-- `RecordParser.parseFieldValues` (lines 267-290): fast simple split or the
quote/nesting-aware splitter, then positional coercion. -/
def parseFieldValues (sch : Schema) : Nat → String → Option TypeDef →
    PM (List Value)
  | 0, _, _ => throw .outOfFuel
  | fuel + 1, valuesStr, td =>
    let l := valuesStr.data
    let isSimple := ¬ l.any fun c =>
      c = '"' ∨ c = '(' ∨ c = ')' ∨ c = '[' ∨ c = ']' ∨ c = '{' ∨ c = '}'
    let valueStrings := if isSimple then splitChar '|' l
      else splitTopLevelRec '|' l {} []
    parseValuesGo sch fuel td isSimple valueStrings 0

/-- The indexed loop inside `parseFieldValues`. -/
def parseValuesGo (sch : Schema) : Nat → Option TypeDef → Bool →
    List (List Char) → Nat → PM (List Value)
  | 0, _, _, _, _ => throw .outOfFuel
  | _ + 1, _, _, [], _ => pure []
  | fuel + 1, td, isSimple, raw :: rest, i => do
    let vs := if isSimple then raw else fastTrim raw
    let fd := (td.bind fun t => t.fields.get? i).map FieldDef.toRef
    let v ← parseFieldValue sch fuel (String.mk vs) fd
    let tail ← parseValuesGo sch fuel td isSimple rest (i + 1)
    pure (v :: tail)

/-- `RecordParser.parseArray` (lines 498-554). -/
def parseArray (sch : Schema) : Nat → String → Option FieldRef → PM Value
  | 0, _, _ => throw .outOfFuel
  | fuel + 1, arrayStr, fd => do
    let content := jsTrim ((arrayStr.data.drop 1).dropLast)
    if content = [] then pure (.arr [])
    else
      let elemFd := (getArrayElementType (fd.bind (·.typeExpr))).map
        fun t => ({ typeExpr := some t } : FieldRef)
      let vs ← parseElems sch fuel elemFd (commaSplitNested content 0 false false [])
      pure (.arr vs)

/-- Element loop of `parseArray`. -/
def parseElems (sch : Schema) : Nat → Option FieldRef → List (List Char) →
    PM (List Value)
  | 0, _, _ => throw .outOfFuel
  | _ + 1, _, [] => pure []
  | fuel + 1, fd, e :: rest => do
    let v ← parseFieldValue sch fuel (String.mk e) fd
    let tail ← parseElems sch fuel fd rest
    pure (v :: tail)

/-- `RecordParser.parseMap` (lines 564-620). -/
def parseMap (sch : Schema) : Nat → String → Option FieldRef → PM Value
  | 0, _, _ => throw .outOfFuel
  | fuel + 1, mapStr, fd => do
    let content := jsTrim ((mapStr.data.drop 1).dropLast)
    if content = [] then pure (.map [])
    else
      let valueFd := (getMapValueType (fd.bind (·.typeExpr))).map
        fun t => ({ typeExpr := some t } : FieldRef)
      let m ← parseEntriesGo sch fuel valueFd (commaSplitNested content 0 false false []) []
      pure (.map m)

/-- Entry loop of `parseMap`. -/
def parseEntriesGo (sch : Schema) : Nat → Option FieldRef → List (List Char) →
    List (String × Value) → PM (List (String × Value))
  | 0, _, _, _ => throw .outOfFuel
  | _ + 1, _, [], m => pure m
  | fuel + 1, vfd, e :: rest, m => do
    let m' ← parseMapEntry sch fuel e m vfd
    parseEntriesGo sch fuel vfd rest m'

/-- `RecordParser.parseMapEntry` (lines 686-738). -/
def parseMapEntry (sch : Schema) : Nat → List Char → List (String × Value) →
    Option FieldRef → PM (List (String × Value))
  | 0, _, _, _ => throw .outOfFuel
  | fuel + 1, entry, m, vfd => do
    match findMapColon entry 0 false false 0 with
    | none => throw .invalidSyntax
    | some colonIdx => do
      let keyStr := jsTrim (entry.take colonIdx)
      let valueStr := jsTrim (entry.drop (colonIdx + 1))
      let key ← parseFieldValue sch fuel (String.mk keyStr)
        (some ({ typeExpr := some "str" } : FieldRef))
      let value ← parseFieldValue sch fuel (String.mk valueStr) vfd
      pure (assocSet m (jsToString key) value)

/-- `RecordParser.parseInlineObject` (lines 745-785). -/
def parseInlineObject (sch : Schema) : Nat → String → Option FieldRef → PM Value
  | 0, _, _ => throw .outOfFuel
  | fuel + 1, objStr, fd => do
    let inner := String.mk ((objStr.data.drop 1).dropLast)
    match getInlineObjectTypeAlias sch (fd.bind (·.typeExpr)) with
    | none => do
      let vs ← parseFieldValues sch fuel inner none
      pure (.anon vs)
    | some ta =>
      match sch.getType ta with
      | none =>
        if sch.mode = "strict" then throw .unknownType
        else do
          addWarning .unknownType
          let vs ← parseFieldValues sch fuel inner none
          pure (.anon vs)
      | some td => do
        let vs ← parseFieldValues sch fuel inner (some td)
        pure (.obj (td.fields.enum.foldl
          (fun acc p => assocSet acc p.2.name (backfillValue p.2 (vs.get? p.1))) []))

end

/-! ## Record assembly (`parseSingleRecord`, record-parser.js lines 151-257) -/

/-- JS `String.prototype.toLowerCase` for the ASCII strings involved here
(character-wise lower-casing). -/
def jsToLower (s : String) : String := ⟨s.data.map Char.toLower⟩

/-- The lax-mode discriminator value synthesised for a field literally named
`type`: the field's declared default, else the display name lower-cased when the
type has one (JS truthiness: a `null` or empty name falls through), else the
alias lower-cased. -/
def inferredTypeValue (td : TypeDef) (tf : FieldDef) : Value :=
  match tf.defaultValue with
  | some d => .str d
  | none =>
    match td.name with
    | some n =>
      if n = "" then .str (jsToLower td.aliasName) else .str (jsToLower n)
    | none => .str (jsToLower td.aliasName)

/-- The back-fill loop of `parseSingleRecord` (lines 225-254): one value per
field, defaults/null for absent or empty positions, required-null fatal in
strict mode and a warning in lax mode. -/
def backfillGo (sch : Schema) : List FieldDef → List Value → PM (List Value)
  | [], _ => pure []
  | f :: fs, vs => do
    let v := backfillValue f vs.head?
    if f.isRequired ∧ v.isNull then
      if sch.mode = "strict" then throw .missingRequiredField
      else addWarning .missingRequiredField
    else pure ()
    let rest ← backfillGo sch fs (vs.drop 1)
    pure (v :: rest)

/-- The lax heuristic for an inherited `type` field (lines 180-199): when the
type's fields contain one literally named `type` and exactly one value is
missing, splice the inferred discriminator in at that field's position. -/
def laxTypePatch (sch : Schema) (td : TypeDef) (values0 : List Value) :
    List Value :=
  if sch.mode ≠ "strict" then
    match td.fields.findIdx? (fun f => f.name = "type") with
    | some j =>
      if values0.length = td.fields.length - 1 then
        match td.fields.get? j with
        | some tf => values0.insertIdx j (inferredTypeValue td tf)
        | none => values0
      else values0
    | none => values0
  else values0

/-- The strict-mode field count validation (lines 202-222): fewer values than
fields is fatal when some field beyond the supplied count is required without a
default, more values than fields is always fatal. -/
def strictCountCheck (sch : Schema) (td : TypeDef) (values : List Value) :
    PM Unit :=
  if sch.mode = "strict" then
    if values.length < td.fields.length then
      match (td.fields.drop values.length).find?
          (fun f => f.isRequired ∧ f.defaultValue = none) with
      | some _ => throw .missingRequiredField
      | none => pure ()
    else if values.length > td.fields.length then
      throw .schemaMismatch
    else pure ()
  else pure ()

/-- `RecordParser.parseSingleRecord`: coerce the `|`-separated content of one
record against the schema. -/
def parseSingleRecord (sch : Schema) (fuel : Nat) (aliasStr valuesStr : String)
    (lineNumber : Nat) : PM MaxiRecord := do
  match sch.getType aliasStr with
  | none =>
    if sch.mode = "strict" then throw .unknownType
    else do
      addWarning .unknownType
      let values ← parseFieldValues sch fuel valuesStr none
      pure ⟨aliasStr, values, lineNumber⟩
  | some td => do
    let values0 ← parseFieldValues sch fuel valuesStr (some td)
    let values := laxTypePatch sch td values0
    strictCountCheck sch td values
    let finalValues ← backfillGo sch td.fields values
    pure ⟨aliasStr, finalValues, lineNumber⟩

/-! ## Schema directives (schema-parser.js) -/

/-- The semver-shape regex `^\d+\.\d+\.\d+$` of `parseVersionDirective`. -/
def semverShape (s : String) : Bool :=
  match splitChar '.' s.data with
  | [a, b, c] =>
    !a.isEmpty && a.all Char.isDigit && !b.isEmpty && b.all Char.isDigit &&
      !c.isEmpty && c.all Char.isDigit
  | _ => false

/-- `SchemaParser.parseVersionDirective` (schema-parser.js lines 138-158):
non-semver values are an invalid-syntax error, well-formed values other than
`1.0.0` an unsupported-version error, `1.0.0` is stored. -/
def parseVersionDirective (sch : Schema) (value : String) : Except ErrCode Schema :=
  if ¬ semverShape value then .error .invalidSyntax
  else if value ≠ "1.0.0" then .error .unsupportedVersion
  else .ok { sch with version := value }

/-! ## Recursive schema imports (`parseSchemaDirective` / `loadExternalSchema`)

The import machinery is modelled at the granularity the claim talks about:
a loaded schema is a list of lines that are either `@schema:` directives or
type declarations (duplicate aliases fatal, as in
`parseCompleteTypeDefinition`).  The per-level `resolveInheritance` /
`buildNameIndex` finalisation steps of nested parses are omitted: they add no
imports and no types.  The shared "currently loading" set is threaded exactly
as the source's `loadingStack`. -/

inductive SchemaLine where
  | schemaDirective (path : String)
  | typeDecl (td : TypeDef)

/-- The state shared along one import chain: the loading stack and the schema
being filled in. -/
structure ImportState where
  loadingStack : List String
  schema : Schema

/-- One pass of `SchemaParser.parse` over directive/type lines, with
`parseSchemaDirective`'s circular-import skip, the unconditional-looking
`imports.push`, and `loadExternalSchema`'s recursive parse into the same
result (fuel bounds the import nesting depth only). -/
def parseSchemaLines (loader : Option (String → List SchemaLine)) :
    Nat → ImportState → List SchemaLine → Except ErrCode ImportState
  | 0, _, _ => .error .outOfFuel
  | _ + 1, st, [] => .ok st
  | fuel + 1, st, (.typeDecl td) :: rest =>
    if st.schema.hasType td.aliasName then .error .duplicateType
    else
      parseSchemaLines loader fuel
        { st with schema := { st.schema with types := st.schema.types ++ [td] } } rest
  | fuel + 1, st, (.schemaDirective p) :: rest =>
    if p ∈ st.loadingStack then
      -- circular import: silently treated as already satisfied
      parseSchemaLines loader fuel st rest
    else
      let st1 := { st with schema :=
        { st.schema with imports := st.schema.imports ++ [p] } }
      match loader with
      | none => .error .schemaLoad
      | some ld =>
        match parseSchemaLines (some ld) fuel
            { st1 with loadingStack := p :: st1.loadingStack } (ld p) with
        | .error e => .error e
        | .ok st2 =>
          parseSchemaLines loader fuel
            { st2 with loadingStack := st2.loadingStack.erase p } rest

/-! ## Inheritance resolution (`resolveInheritance`, schema-parser.js 966-1029) -/

/-- Resolver state: the per-type final field lists committed so far (modelling
the in-place `typeDef.fields` mutation plus `_inheritanceResolved`), the
`visiting` DFS stack and the `visited` set. -/
structure RState where
  resolved : List (String × List FieldDef)
  visiting : List String
  visited : List String
deriving Repr

/-- Current field list of an already-resolved type. -/
def lookupResolved (st : RState) (a : String) : Option (List FieldDef) :=
  (st.resolved.find? (fun p => p.1 = a)).map (·.2)

/-- The parent-merge step: append each parent field unless a field of that name
is already in the inherited list (earliest parent wins). -/
def dedupAppend (inh : List FieldDef) (pf : List FieldDef) : List FieldDef :=
  pf.foldl (fun acc f =>
    if acc.any (fun g => g.name = f.name) then acc else acc ++ [f]) inh

/-- The own-field overlay: replace a same-named inherited field in place,
else append. -/
def overlayOwn (inh : List FieldDef) (own : List FieldDef) : List FieldDef :=
  own.foldl (fun acc f =>
    match acc.findIdx? (fun g => g.name = f.name) with
    | some i => acc.set i f
    | none => acc ++ [f]) inh

/-- The final field list the specification describes, as a function of the
parents' already-final field lists and the type's own fields. -/
def claimMergedFields (parentFinals : List (List FieldDef)) (own : List FieldDef) :
    List FieldDef :=
  overlayOwn (parentFinals.foldl dedupAppend []) own

mutual

/-- `resolveType` inside `resolveInheritance`. -/
def resolveType (sch : Schema) : Nat → String → RState → Except ErrCode RState
  | 0, _, _ => .error .outOfFuel
  | fuel + 1, a, st =>
    if a ∈ st.visited then .ok st
    else if a ∈ st.visiting then .error .circularInheritance
    else
      match sch.getType a with
      | none => .ok st
      | some td =>
        if (lookupResolved st a).isSome then .ok st
        else
          match resolveParents sch fuel td.parents
              { st with visiting := a :: st.visiting } [] with
          | .error e => .error e
          | .ok (st2, inherited) =>
            .ok { resolved := st2.resolved ++ [(a, overlayOwn inherited td.fields)],
                  visiting := st2.visiting.erase a,
                  visited := a :: st2.visited }

/-- The parent loop of `resolveType`: check the parent exists, resolve it
recursively, then merge its (now final) field list. -/
def resolveParents (sch : Schema) : Nat → List String → RState → List FieldDef →
    Except ErrCode (RState × List FieldDef)
  | 0, _, _, _ => .error .outOfFuel
  | _ + 1, [], st, inh => .ok (st, inh)
  | fuel + 1, p :: ps, st, inh =>
    match sch.getType p with
    | none => .error .undefinedParent
    | some ptd =>
      match resolveType sch fuel p st with
      | .error e => .error e
      | .ok st2 =>
        let pf := (lookupResolved st2 p).getD ptd.fields
        resolveParents sch fuel ps st2 (dedupAppend inh pf)

end

/-- The top loop of `resolveInheritance` over all declared aliases. -/
def resolveAll (sch : Schema) (fuel : Nat) : List String → RState →
    Except ErrCode RState
  | [], st => .ok st
  | a :: rest, st =>
    match resolveType sch fuel a st with
    | .error e => .error e
    | .ok st2 => resolveAll sch fuel rest st2

/-- `SchemaParser.resolveInheritance`. -/
def resolveInheritance (sch : Schema) (fuel : Nat) : Except ErrCode RState :=
  resolveAll sch fuel (sch.types.map (·.aliasName)) ⟨[], [], []⟩

/-! ## Serializer reference promotion (`collectReferencedObjectsIterative`)

Live JS objects are modelled by a heap of tags: a tag (a `Nat`) names one object
identity, the heap gives its own-properties.  Arrays appear structurally (the
traversal only ever consults identity of the items, never of the arrays, and an
array is never promoted since its `id` property is undefined). -/

/-- JS runtime values as seen by the dump path. -/
inductive JVal where
  | undef
  | jnull
  | jbool (b : Bool)
  | jnum (q : Rat)
  | jstr (s : String)
  | ref (t : Nat)
  | arr (items : List JVal)
deriving Repr

/-- Object graphs: each tag's property list (a missing key is `undefined`). -/
abbrev JHeap := Nat → List (String × JVal)

/-- Property lookup, `none` = JS `undefined`. -/
def lookupJ (o : List (String × JVal)) (k : String) : Option JVal :=
  (o.find? (fun p => p.1 = k)).map (·.2)

/-- `v && typeof v === 'object'` on the modelled values. -/
def isObjectLike : JVal → Bool
  | .ref _ => true
  | .arr _ => true
  | _ => false

/-- Traversal state of `collectReferencedObjectsIterative`: `recordsToDump`
(alias-keyed buckets of object tags), `seenObjects` and the worklist (a stack:
push and pop at the head). -/
structure CState where
  buckets : List (String × List Nat)
  seen : List Nat
  work : List (String × Nat)
deriving Repr

/-- `recordsToDump.get(alias).push(item)` with on-demand bucket creation. -/
def bucketAdd (bs : List (String × List Nat)) (a : String) (t : Nat) :
    List (String × List Nat) :=
  if bs.any (fun p => p.1 = a) then
    bs.map (fun p => if p.1 = a then (p.1, p.2 ++ [t]) else p)
  else bs ++ [(a, [t])]

/-- `allTypes.get(alias)` (the map is keyed by alias via `normalizeTypes`). -/
def findTypeByAlias (types : List TypeDef) (a : String) : Option TypeDef :=
  types.find? (fun td => td.aliasName = a)

/-- `typeExpr.replace(/\[\]$/, '')`: strip one literal trailing `[]`. -/
def stripArraySuffix (te : List Char) : List Char :=
  if 2 ≤ te.length ∧ te.drop (te.length - 2) = ['[', ']'] then
    te.take (te.length - 2)
  else te

/-- `nestedType.fields?.find(f => f.name === 'id')` — the promotion path looks
for a field literally named `id` (not `MaxiTypeDef.getIdField`). -/
def hasIdFieldNamed (td : TypeDef) : Option FieldDef :=
  td.fields.find? (fun f => f.name = "id")

/-- The per-item promotion step: skip non-objects and already-seen items;
promote when the `id` property is present (not `undefined` — a `null` id still
counts), adding to the target bucket, the seen set and the worklist. -/
def promoteItem (heap : JHeap) (nestedAlias idName : String) (st : CState)
    (item : JVal) : CState :=
  match item with
  | .ref t =>
    if t ∈ st.seen then st
    else if (lookupJ (heap t) idName).isSome then
      { buckets := bucketAdd st.buckets nestedAlias t,
        seen := t :: st.seen,
        work := (nestedAlias, t) :: st.work }
    else st
  | _ => st

/-- The per-field step of the worklist body. -/
def processField (types : List TypeDef) (heap : JHeap)
    (obj : List (String × JVal)) (st : CState) (field : FieldDef) : CState :=
  let v := (lookupJ obj field.name).getD .undef
  if isObjectLike v then
    match field.typeExpr with
    | none => st
    | some te =>
      let bt := String.mk (stripArraySuffix te.data)
      if bt = "" then st
      else
        match findTypeByAlias types bt with
        | none => st
        | some nt =>
          match hasIdFieldNamed nt with
          | none => st
          | some idF =>
            let items := match v with | .arr l => l | w => [w]
            items.foldl (promoteItem heap nt.aliasName idF.name) st
  else st

/-- One worklist iteration. -/
def processWorkItem (types : List TypeDef) (heap : JHeap) (st : CState)
    (wi : String × Nat) : CState :=
  match findTypeByAlias types wi.1 with
  | none => st
  | some td => td.fields.foldl (processField types heap (heap wi.2)) st

/-- The `while (work.length > 0)` loop, fuel-bounded. -/
def collectLoop (types : List TypeDef) (heap : JHeap) : Nat → CState → CState
  | 0, st => st
  | fuel + 1, st =>
    match st.work with
    | [] => st
    | wi :: rest =>
      collectLoop types heap fuel
        (processWorkItem types heap { st with work := rest } wi)

/-- Seeding of one bucket's rows. -/
def seedRows (a : String) : List Nat → CState → CState
  | [], st => st
  | t :: ts, st =>
    if t ∈ st.seen then seedRows a ts st
    else seedRows a ts { st with seen := t :: st.seen, work := (a, t) :: st.work }

/-- Seeding over all buckets. -/
def seedAll : List (String × List Nat) → CState → CState
  | [], st => st
  | p :: ps, st => seedAll ps (seedRows p.1 p.2 st)

/-- The worklist seeding (`// Seed worklist with all currently-known top-level
records`). -/
def seedState (buckets0 : List (String × List Nat)) : CState :=
  seedAll buckets0 ⟨buckets0, [], []⟩

/-- `collectReferencedObjectsIterative` (dump module, lines 186-232). -/
def collectReferenced (types : List TypeDef) (heap : JHeap)
    (buckets0 : List (String × List Nat)) (fuel : Nat) : CState :=
  collectLoop types heap fuel (seedState buckets0)

/-- Rows currently in the bucket of alias `a`. -/
def bucketLookup (bs : List (String × List Nat)) (a : String) : List Nat :=
  ((bs.find? (fun p => p.1 = a)).map (·.2)).getD []

/-- How often tag `t` occurs across all buckets. -/
def bucketTagCount (bs : List (String × List Nat)) (t : Nat) : Nat :=
  (bs.map (fun p => p.2.count t)).sum

/-- The static promotion condition of the claim: the bucket's alias names a
known type with a field literally named `id`, and the object carries that
property (possibly with value `null`). -/
def promotable (types : List TypeDef) (heap : JHeap) (a : String) (t : Nat) :
    Prop :=
  ∃ nt, findTypeByAlias types a = some nt ∧
    ∃ f, hasIdFieldNamed nt = some f ∧ (lookupJ (heap t) f.name).isSome

/-- Traversal invariant of the promotion loop, relative to the seeded
buckets: bucket keys stay unique, every bucket row is an original row or a
code-promotable object, per-tag multiplicity never exceeds the seeded
multiplicity (or one, for newly promoted tags), and every bucketed tag is in
the seen set. -/
def CInv (types : List TypeDef) (heap : JHeap)
    (buckets0 : List (String × List Nat)) (st : CState) : Prop :=
  (st.buckets.map Prod.fst).Nodup ∧
  (∀ a t, t ∈ bucketLookup st.buckets a →
    t ∈ bucketLookup buckets0 a ∨ promotable types heap a t) ∧
  (∀ t, bucketTagCount st.buckets t ≤ max (bucketTagCount buckets0 t) 1) ∧
  (∀ t, t ∉ st.seen → bucketTagCount st.buckets t = 0)

/-! ## Escape-block view (proof infrastructure for the quoting round trip) -/

/-- Combined per-character effect of the serializer's five escape passes on a
string that contains no backslash. -/
def escBlock (c : Char) : List Char :=
  if c = '"' then ['\\', '"']
  else if c = '\n' then ['\\', 'n']
  else if c = '\r' then ['\\', 'r']
  else if c = '\t' then ['\\', 't']
  else [c]

/-- Effect of one unescape pass on one escape block. -/
def pairBlockMap (p r : Char) (b : List Char) : List Char :=
  if b = ['\\', p] then [r] else b

/-- Blocks an unescape pass scans without misalignment: a single non-backslash
character, or a backslash followed by a non-backslash. -/
def GoodBlock (b : List Char) : Prop :=
  (∃ c, b = [c] ∧ c ≠ '\\') ∨ (∃ d, b = ['\\', d] ∧ d ≠ '\\')

/-- The pure value part of the back-fill loop: one entry per field, absent or
empty positions replaced by the default or null (warning/fatal bookkeeping
separated out in `backfillGo`). -/
def backfillPure : List FieldDef → List Value → List Value
  | [], _ => []
  | f :: fs, vs => backfillValue f vs.head? :: backfillPure fs (vs.drop 1)

/-! ## Numeric token shapes as the specification words them (claim side) -/

/-- The digit-run analysis of `detectNumberKind` after the optional minus has
been consumed (proof-side factoring of the same code path). -/
def numKindBody (body : List Char) : Nat :=
  match body with
  | [] => 0
  | d :: _ =>
    if ¬ d.isDigit then 0
    else
      match body.dropWhile Char.isDigit with
      | [] => 1
      | '.' :: frac =>
        if frac = [] then 3
        else if frac.all Char.isDigit then 2
        else 0
      | _ => 0

/-- An optionally minus-signed digit run: the claim's "token of digits"
extended by the leading minus the code accepts. -/
def isIntTok (l : List Char) : Bool :=
  if l.head? = some '-' then !l.tail.isEmpty && l.tail.all Char.isDigit
  else !l.isEmpty && l.all Char.isDigit

/-- An optionally minus-signed digit run with a single trailing dot
(such as `500.`). -/
def isTrailDotTok (l : List Char) : Bool :=
  let body := if l.head? = some '-' then l.tail else l
  !body.dropLast.isEmpty && body.dropLast.all Char.isDigit &&
    body.getLastD ' ' = '.'

/-- An optionally minus-signed digit run with a fractional part. -/
def isDecTok (l : List Char) : Bool :=
  let body := if l.head? = some '-' then l.tail else l
  match splitChar '.' body with
  | [a, b] => !a.isEmpty && a.all Char.isDigit && !b.isEmpty && b.all Char.isDigit
  | _ => false

/-! ## Concrete fixtures used by witnesses and counterexamples -/

/-- Strict-mode fixture type: a required field without default, then a field
with a default. -/
def tdReqDef : TypeDef :=
  { aliasName := "T",
    fields := [{ name := "a", constraints := [.required] },
               { name := "c", defaultValue := some "5" }] }

/-- Two-field fixture type without constraints. -/
def tdPlain : TypeDef :=
  { aliasName := "W", fields := [{ name := "a" }, { name := "b" }] }

/-- Strict-mode fixture schema holding both fixture types. -/
def schStrict : Schema :=
  { mode := "strict", types := [tdReqDef, tdPlain] }

/-- Lax-mode fixture type with a field literally named `type` and a display
name. -/
def tdEvent : TypeDef :=
  { aliasName := "E", name := some "Event",
    fields := [{ name := "type" }, { name := "x" }] }

/-- Lax-mode fixture schema. -/
def schEvent : Schema :=
  { types := [tdEvent] }

/-- Import-model fixture loader: path `a` loads a schema that re-imports `a`
itself and then declares one type. -/
def exLoader : String → List SchemaLine := fun p =>
  if p = "a" then
    [.schemaDirective "a", .typeDecl { aliasName := "T" }]
  else []

/-- Serializer fixture: types `A` (with a `B`-typed field) and `B` (with an
`id` field). -/
def typesAB : List TypeDef :=
  [{ aliasName := "A", fields := [{ name := "f", typeExpr := some "B" }] },
   { aliasName := "B", fields := [{ name := "id" }] }]

/-- Heap for the `typesAB` fixture: object 0 references object 1, whose `id`
property is present but null. -/
def heapAB : JHeap := fun t =>
  if t = 0 then [("f", .ref 1)]
  else if t = 1 then [("id", .jnull)]
  else []

/-- Serializer fixture: type `D` has its identifier only through an `id`
constraint on a field named `key`. -/
def typesCD : List TypeDef :=
  [{ aliasName := "C", fields := [{ name := "f", typeExpr := some "D" }] },
   { aliasName := "D", fields := [{ name := "key", constraints := [.id] }] }]

/-- Heap for the `typesCD` fixture: object 2 references object 3, which has a
non-null `key`. -/
def heapCD : JHeap := fun t =>
  if t = 2 then [("f", .ref 3)]
  else if t = 3 then [("key", .jstr "x")]
  else []

/-- Resolver state extension: the resolver only ever appends committed
entries. -/
def RExt (st st' : RState) : Prop :=
  ∃ t, st'.resolved = st.resolved ++ t

/-- The resolver invariant: every visited alias has a committed entry, and
every entry visible to lookup is the claimed merge of its parents' committed
field lists, all of which are committed. -/
def RInv (sch : Schema) (st : RState) : Prop :=
  (∀ a, a ∈ st.visited → (lookupResolved st a).isSome = true) ∧
  (∀ a fl, lookupResolved st a = some fl →
    ∃ td, sch.getType a = some td ∧
      fl = claimMergedFields
        (td.parents.map fun p => (lookupResolved st p).getD []) td.fields ∧
      ∀ p ∈ td.parents, (lookupResolved st p).isSome = true)

/-- Inheritance fixture: two parents with a name conflict on `y`, and a child
overriding `x` and adding `w`. -/
def tdP : TypeDef :=
  { aliasName := "P", fields := [{ name := "x" }, { name := "y" }] }

def tdQ : TypeDef :=
  { aliasName := "Q",
    fields := [{ name := "y", defaultValue := some "q" }, { name := "z" }] }

def tdC : TypeDef :=
  { aliasName := "C", parents := ["P", "Q"],
    fields := [{ name := "x", defaultValue := some "c" }, { name := "w" }] }

/-- Inheritance fixture schema. -/
def schInh : Schema :=
  { types := [tdP, tdQ, tdC] }

/-- The resolver state the fixture schema resolves to. -/
def rstInh : RState :=
  ⟨[("P", [{ name := "x" }, { name := "y" }]),
    ("Q", [{ name := "y", defaultValue := some "q" }, { name := "z" }]),
    ("C", [{ name := "x", defaultValue := some "c" }, { name := "y" },
           { name := "z" }, { name := "w" }])],
   [], ["C", "Q", "P"]⟩

/-! ## Theorems -/

theorem splitTopLevelRec_ne_nil (d : Char) (l : List Char) (st : SplitSt) (acc : List Char) :
    splitTopLevelRec d l st acc ≠ [] := by
  induction l generalizing st acc with
  | nil => simp [splitTopLevelRec]
  | cons c rest ih =>
    rw [splitTopLevelRec]
    dsimp only
    split_ifs <;> first | exact ih _ _ | simp

theorem joinParts_cons (d : Char) (p : List Char) (ps : List (List Char)) (h : ps ≠ []) :
    joinParts d (p :: ps) = p ++ d :: joinParts d ps := by
  cases ps with
  | nil => exact absurd rfl h
  | cons q qs => rfl

theorem joinParts_splitTopLevelRec (d : Char) (l : List Char) (st : SplitSt) (acc : List Char) :
    joinParts d (splitTopLevelRec d l st acc) = acc.reverse ++ l := by
  induction l generalizing st acc with
  | nil => simp [splitTopLevelRec, joinParts]
  | cons c rest ih =>
    rw [splitTopLevelRec]
    dsimp only
    split_ifs with h1 h2 h3 h4 h5 <;>
      first
      | (rw [joinParts_cons d _ _ (splitTopLevelRec_ne_nil _ _ _ _), ih]
         simp_all)
      | (rw [ih]; simp)

theorem splitTopLevelSch_ne_nil (d : Char) (l : List Char) (st : SplitSt) (acc : List Char) :
    splitTopLevelSch d l st acc ≠ [] := by
  induction l generalizing st acc with
  | nil => simp [splitTopLevelSch]
  | cons c rest ih =>
    rw [splitTopLevelSch]
    dsimp only
    split_ifs <;> first | exact ih _ _ | simp

theorem joinParts_splitTopLevelSch (d : Char) (l : List Char) (st : SplitSt) (acc : List Char) :
    joinParts d (splitTopLevelSch d l st acc) = acc.reverse ++ l := by
  induction l generalizing st acc with
  | nil => simp [splitTopLevelSch, joinParts]
  | cons c rest ih =>
    rw [splitTopLevelSch]
    dsimp only
    split_ifs with h1 h2 h3 h4 h5 <;>
      first
      | (rw [joinParts_cons d _ _ (splitTopLevelSch_ne_nil _ _ _ _), ih]
         simp_all)
      | (rw [ih]; simp)

/-- Claim C10: for every input string and single-character delimiter, both top-level
split operations (the record-parser one and the schema-parser one) are lossless:
concatenating the returned parts with the delimiter re-inserted between consecutive
parts reproduces the input exactly, whatever the quoting, escaping or bracket
nesting in the input. -/
theorem C10_splitTopLevel_lossless (s : List Char) (d : Char) :
    joinParts d (splitTopLevelRec d s {} []) = s ∧
    joinParts d (splitTopLevelSch d s {} []) = s :=
  ⟨by simpa using joinParts_splitTopLevelRec d s {} [],
   by simpa using joinParts_splitTopLevelSch d s {} []⟩

/-- Claim C8: for every `@version` directive value, a semver-shaped value other
than `1.0.0` fails with the unsupported-version code, a non-semver-shaped value
fails with the syntax-error code, and `1.0.0` is accepted and stored. -/
theorem C8_versionDirective (sch : Schema) (v : String) :
    (semverShape v = true → v ≠ "1.0.0" →
      parseVersionDirective sch v = .error .unsupportedVersion) ∧
    (semverShape v = false → parseVersionDirective sch v = .error .invalidSyntax) ∧
    (v = "1.0.0" → parseVersionDirective sch v = .ok { sch with version := "1.0.0" }) := by
  refine ⟨fun hs hne => ?_, fun hs => ?_, fun hv => ?_⟩
  · simp [parseVersionDirective, hs, hne]
  · simp [parseVersionDirective, hs]
  · subst hv
    have hs : semverShape "1.0.0" = true := by decide
    simp [parseVersionDirective, hs]

/-- Witness for C8 at the concrete values `2.0.0`, `x.y` and `1.0.0`. -/
theorem C8_versionDirective_witness :
    parseVersionDirective {} "2.0.0" = .error .unsupportedVersion ∧
    parseVersionDirective {} "x.y" = .error .invalidSyntax ∧
    parseVersionDirective {} "1.0.0" = .ok { ({} : Schema) with version := "1.0.0" } :=
  ⟨(C8_versionDirective {} "2.0.0").1 (by decide) (by decide),
   (C8_versionDirective {} "x.y").2.1 (by decide),
   (C8_versionDirective {} "1.0.0").2.2 rfl⟩

theorem replacePair_cons_of_ne (p r c : Char) (l : List Char) (h : c ≠ '\\') :
    replacePair p r (c :: l) = c :: replacePair p r l := by
  cases l with
  | nil => simp [replacePair]
  | cons b rest => simp [replacePair, h]

theorem replacePair_of_not_bs (p r : Char) (l : List Char) (h : '\\' ∉ l) :
    replacePair p r l = l := by
  induction l with
  | nil => simp [replacePair]
  | cons c rest ih =>
    rw [replacePair_cons_of_ne p r c rest (by rintro rfl; simp_all),
      ih (by simp_all)]

theorem replacePair_blocks (p r : Char) (bs : List (List Char))
    (hwf : ∀ b ∈ bs, GoodBlock b) :
    replacePair p r bs.flatten = (bs.map (pairBlockMap p r)).flatten := by
  induction bs with
  | nil => simp [replacePair]
  | cons b rest ih =>
    have hb := hwf b (by simp)
    have hrest : ∀ x ∈ rest, GoodBlock x := fun x hx => hwf x (by simp [hx])
    rcases hb with ⟨c, hc, hcne⟩ | ⟨d, hd, hdne⟩
    · subst hc
      have h1 : pairBlockMap p r [c] = [c] := by simp [pairBlockMap]
      simp only [List.map_cons, List.flatten_cons, h1, List.singleton_append]
      rw [replacePair_cons_of_ne p r c _ hcne, ih hrest]
    · subst hd
      have hstep : replacePair p r ('\\' :: d :: rest.flatten) =
          if '\\' = '\\' ∧ d = p then r :: replacePair p r rest.flatten
          else '\\' :: replacePair p r (d :: rest.flatten) := rfl
      by_cases hdp : d = p
      · have h1 : pairBlockMap p r ['\\', d] = [r] := by simp [pairBlockMap, hdp]
        simp only [List.map_cons, List.flatten_cons, h1, List.cons_append,
          List.nil_append, List.singleton_append]
        rw [hstep, if_pos ⟨rfl, hdp⟩, ih hrest]
      · have h1 : pairBlockMap p r ['\\', d] = ['\\', d] := by
          simp [pairBlockMap, hdp]
        simp only [List.map_cons, List.flatten_cons, h1, List.cons_append,
          List.nil_append, List.singleton_append]
        rw [hstep, if_neg (by simp [hdp]),
          replacePair_cons_of_ne p r d _ hdne, ih hrest]

theorem escBlock_good (c : Char) (h : c ≠ '\\') : GoodBlock (escBlock c) := by
  by_cases h1 : c = '"'
  · exact Or.inr ⟨'"', by simp [escBlock, h1], by decide⟩
  · by_cases h2 : c = '\n'
    · exact Or.inr ⟨'n', by simp [escBlock, h1, h2], by decide⟩
    · by_cases h3 : c = '\r'
      · exact Or.inr ⟨'r', by simp [escBlock, h1, h2, h3], by decide⟩
      · by_cases h4 : c = '\t'
        · exact Or.inr ⟨'t', by simp [escBlock, h1, h2, h3, h4], by decide⟩
        · exact Or.inl ⟨c, by simp [escBlock, h1, h2, h3, h4], h⟩

theorem pairBlockMap_good (p r : Char) (hr : r ≠ '\\') (b : List Char)
    (h : GoodBlock b) : GoodBlock (pairBlockMap p r b) := by
  rcases h with ⟨c, hc, hcne⟩ | ⟨d, hd, hdne⟩
  · subst hc
    exact Or.inl ⟨c, by simp [pairBlockMap], hcne⟩
  · subst hd
    by_cases hdp : d = p
    · subst hdp
      exact Or.inl ⟨r, by simp [pairBlockMap], hr⟩
    · exact Or.inr ⟨d, by simp [pairBlockMap, hdp], hdne⟩

theorem escapeString_cons (c : Char) (t : List Char) :
    escapeString (c :: t) = escapeString [c] ++ escapeString t := by
  simp [escapeString, replaceChar]

theorem escapeString_single (c : Char) (h : c ≠ '\\') :
    escapeString [c] = escBlock c := by
  by_cases h1 : c = '"' <;> by_cases h2 : c = '\n' <;> by_cases h3 : c = '\r' <;>
    by_cases h4 : c = '\t' <;>
      simp_all [escapeString, replaceChar, escBlock]

theorem escapeString_eq_blocks (l : List Char) (h : '\\' ∉ l) :
    escapeString l = (l.map escBlock).flatten := by
  induction l with
  | nil => simp [escapeString, replaceChar]
  | cons c t ih =>
    rw [escapeString_cons, escapeString_single c (by rintro rfl; simp_all),
      ih (by simp_all)]
    simp

theorem blockRoundTrip (c : Char) (h : c ≠ '\\') :
    pairBlockMap '"' '"'
      (pairBlockMap 't' '\t'
        (pairBlockMap 'r' '\r'
          (pairBlockMap 'n' '\n' (escBlock c)))) = [c] := by
  by_cases h1 : c = '"' <;> by_cases h2 : c = '\n' <;> by_cases h3 : c = '\r' <;>
    by_cases h4 : c = '\t' <;>
      simp_all [pairBlockMap, escBlock]

theorem unescape_escape (l : List Char) (h : '\\' ∉ l) :
    unescapeString (escapeString l) = l := by
  have hgood0 : ∀ b ∈ l.map escBlock, GoodBlock b := by
    intro b hb
    rcases List.mem_map.mp hb with ⟨c, hc, rfl⟩
    exact escBlock_good c (fun hcne => h (hcne ▸ hc))
  rw [escapeString_eq_blocks l h]
  unfold unescapeString
  rw [replacePair_blocks 'n' '\n' _ hgood0]
  have hgood1 : ∀ b ∈ (l.map escBlock).map (pairBlockMap 'n' '\n'), GoodBlock b := by
    intro b hb
    rcases List.mem_map.mp hb with ⟨b0, hb0, rfl⟩
    exact pairBlockMap_good _ _ (by decide) _ (hgood0 b0 hb0)
  rw [replacePair_blocks 'r' '\r' _ hgood1]
  have hgood2 : ∀ b ∈ ((l.map escBlock).map (pairBlockMap 'n' '\n')).map
      (pairBlockMap 'r' '\r'), GoodBlock b := by
    intro b hb
    rcases List.mem_map.mp hb with ⟨b0, hb0, rfl⟩
    exact pairBlockMap_good _ _ (by decide) _ (hgood1 b0 hb0)
  rw [replacePair_blocks 't' '\t' _ hgood2]
  have hgood3 : ∀ b ∈ (((l.map escBlock).map (pairBlockMap 'n' '\n')).map
      (pairBlockMap 'r' '\r')).map (pairBlockMap 't' '\t'), GoodBlock b := by
    intro b hb
    rcases List.mem_map.mp hb with ⟨b0, hb0, rfl⟩
    exact pairBlockMap_good _ _ (by decide) _ (hgood2 b0 hb0)
  rw [replacePair_blocks '"' '"' _ hgood3]
  have hsing : ((((l.map escBlock).map (pairBlockMap 'n' '\n')).map
      (pairBlockMap 'r' '\r')).map (pairBlockMap 't' '\t')).map
      (pairBlockMap '"' '"') = l.map (fun c => [c]) := by
    simp only [List.map_map]
    apply List.map_congr_left
    intro c hc
    exact blockRoundTrip c (fun hcne => h (hcne ▸ hc))
  rw [hsing]
  have hflat : (l.map fun c => [c]).flatten = l := by
    induction l with
    | nil => rfl
    | cons c t ih => simp_all
  rw [hflat]
  exact replacePair_of_not_bs _ _ l h

theorem PM_pure_apply {α : Type} (a : α) (ws : List ErrCode) :
    (pure a : PM α) ws = .ok (a, ws) := rfl

theorem PM_bind_apply {α β : Type} (x : PM α) (f : α → PM β) (ws : List ErrCode) :
    (x >>= f) ws = (x ws).bind fun p => f p.1 p.2 := by
  show (x ws >>= fun p => f p.1 p.2) = _
  cases x ws <;> rfl

theorem PM_throw_apply {α : Type} (e : ErrCode) (ws : List ErrCode) :
    (throw e : PM α) ws = .error e := rfl

theorem PM_addWarning_apply (w : ErrCode) (ws : List ErrCode) :
    addWarning w ws = .ok ((), ws ++ [w]) := rfl

/-- Claim C3 counterexample: the string backslash-`n`-space needs quoting
(it contains a space); quoting it and then applying the parser's quoted-string
coercion yields backslash-newline-space, not the original string — the
sequential unescape passes of `parseQuotedString` re-interpret the escaped
backslash together with the following `n`. -/
theorem C3_counterexample :
    needsQuoting "\\n ".data = true ∧
    parseQuotedStringL (dumpStringValue "\\n ".data) = "\\\n ".data ∧
    parseQuotedStringL (dumpStringValue "\\n ".data) ≠ "\\n ".data :=
  ⟨by decide, by decide, by decide⟩

/-- Claim C3 (amended): for every string value containing no backslash,
serializer-side quoting (wrapping in double quotes and backslash-escaping)
followed by parser-side quoted-string coercion returns the original string
unchanged; moreover `parseFieldValue` applies no further type coercion to the
quoted token, whatever the field definition and mode. -/
theorem C3_quoting_roundtrip (l : List Char) (h : '\\' ∉ l) :
    parseQuotedStringL ('"' :: (escapeString l ++ ['"'])) = l ∧
    ∀ (sch : Schema) (fuel : Nat) (fd : Option FieldRef) (ws : List ErrCode),
      parseFieldValue sch (fuel + 1)
        (String.mk ('"' :: (escapeString l ++ ['"']))) fd ws =
        .ok (.str (String.mk l), ws) := by
  have hslice : (('"' :: (escapeString l ++ ['"'])).drop 1).dropLast =
      escapeString l := by
    show (escapeString l ++ ['"']).dropLast = escapeString l
    simp
  have hrt : parseQuotedStringL ('"' :: (escapeString l ++ ['"'])) = l := by
    rw [parseQuotedStringL, hslice]
    exact unescape_escape l h
  refine ⟨hrt, fun sch fuel fd ws => ?_⟩
  have hne : String.mk ('"' :: (escapeString l ++ ['"'])) ≠ "" := by
    simp [String.ext_iff]
  have hnt : String.mk ('"' :: (escapeString l ++ ['"'])) ≠ "~" := by
    simp [String.ext_iff]
  rw [parseFieldValue]
  simp only [hne, hnt, if_false, if_neg hne, if_neg hnt]
  have hlast : ('"' :: (escapeString l ++ ['"'])).getLastD ' ' = '"' := by
    have he : ('"' :: (escapeString l ++ ['"'])) = ('"' :: escapeString l) ++ ['"'] := by
      simp
    rw [he]
    exact List.getLastD_concat _ _ _
  simp only [hlast]
  rw [if_neg (by decide), if_neg (by decide), if_neg (by decide),
    if_pos (show True ∧ True from ⟨trivial, trivial⟩)]
  rw [hrt]
  rfl

/-- Witness for the amended C3 at the concrete backslash-free string `a b`. -/
theorem C3_quoting_roundtrip_witness :
    ('\\' ∉ "a b".data) ∧
    parseQuotedStringL ('"' :: (escapeString "a b".data ++ ['"'])) = "a b".data ∧
    parseFieldValue {} 5 (String.mk ('"' :: (escapeString "a b".data ++ ['"']))) none [] =
      .ok (.str (String.mk "a b".data), []) := by
  have h : '\\' ∉ "a b".data := by decide
  have h2 := C3_quoting_roundtrip "a b".data h
  exact ⟨h, h2.1, h2.2 {} 4 none []⟩

/-- Claim C7 counterexample: the token `-5` under a `decimal` field is none of
the claim's numeric shapes (each begins with a digit), so per the claim it
should pass through as the raw string, but the coercion engine accepts the
leading minus and returns the number `-5`. -/
theorem C7_counterexample :
    detectNumberKind "-5".data = 1 ∧
    parseFieldValue {} 5 "-5" (some { typeExpr := some "decimal" }) [] =
      .ok (.num ((-5 : Int) : Rat), []) ∧
    ∀ s : String, Value.num ((-5 : Int) : Rat) ≠ Value.str s :=
  ⟨by decide, rfl, fun s h => Value.noConfusion h⟩

theorem splitChar_ne_nil (d : Char) (l : List Char) : splitChar d l ≠ [] := by
  cases l with
  | nil => simp [splitChar]
  | cons c rest =>
    rw [splitChar]
    split_ifs
    · simp
    · cases h : splitChar d rest <;> simp

theorem joinParts_cons_cons (d c : Char) (p : List Char) (ps : List (List Char)) :
    joinParts d ((c :: p) :: ps) = c :: joinParts d (p :: ps) := by
  cases ps <;> simp [joinParts]

theorem joinParts_splitChar (d : Char) (l : List Char) :
    joinParts d (splitChar d l) = l := by
  induction l with
  | nil => rfl
  | cons c rest ih =>
    rw [splitChar]
    by_cases hc : c = d
    · rw [if_pos hc, joinParts_cons d [] _ (splitChar_ne_nil d rest), ih, hc]
      rfl
    · rw [if_neg hc]
      cases hsp : splitChar d rest with
      | nil => exact absurd hsp (splitChar_ne_nil d rest)
      | cons p ps =>
        rw [joinParts_cons_cons, ← hsp, ih]

theorem splitChar_pair (d : Char) (l a b : List Char)
    (h : splitChar d l = [a, b]) : l = a ++ d :: b := by
  have hj := joinParts_splitChar d l
  rw [h] at hj
  simpa [joinParts] using hj.symm

theorem splitChar_not_mem (d : Char) (l : List Char) (h : d ∉ l) :
    splitChar d l = [l] := by
  induction l with
  | nil => rfl
  | cons c rest ih =>
    rw [splitChar, if_neg (by rintro rfl; simp_all), ih (by simp_all)]

theorem splitChar_append_cons (d : Char) (a b : List Char) (h : d ∉ a) :
    splitChar d (a ++ d :: b) = a :: splitChar d b := by
  induction a with
  | nil => simp [splitChar]
  | cons x xs ih =>
    rw [List.cons_append, splitChar, if_neg (by rintro rfl; simp_all),
      ih (by simp_all)]

theorem all_digit_not_dot {l : List Char} (h : l.all Char.isDigit = true) :
    '.' ∉ l := by
  intro hm
  have := List.all_eq_true.mp h _ hm
  exact absurd this (by decide)

theorem getLastD_mem {α} (l : List α) (x : α) (h : l ≠ []) : l.getLastD x ∈ l := by
  cases l with
  | nil => exact absurd rfl h
  | cons a as =>
    rw [List.getLastD_cons]
    exact List.getLastD_mem_cons as a

theorem getLastD_append_right {α} (a b : List α) (x y : α) (h : b ≠ []) :
    (a ++ b).getLastD x = b.getLastD y := by
  cases b with
  | nil => exact absurd rfl h
  | cons z zs =>
    induction a generalizing x with
    | nil => rw [List.nil_append, List.getLastD_cons, List.getLastD_cons]
    | cons c cs ih => rw [List.cons_append, List.getLastD_cons, ih c]

theorem dropWhile_append_all {p : Char → Bool} {a : List Char} {c : Char}
    {b : List Char} (ha : a.all p = true) (hc : p c = false) :
    List.dropWhile p (a ++ c :: b) = c :: b := by
  induction a with
  | nil => simp [List.dropWhile_cons, hc]
  | cons w ws ih =>
    simp only [List.all_cons, Bool.and_eq_true] at ha
    rw [List.cons_append, List.dropWhile_cons]
    simp [ha.1, ih ha.2]

theorem dropLast_append_cons_ne_nil {α} (a : List α) (c : α) (b : List α)
    (h : b ≠ []) : (a ++ c :: b).dropLast = a ++ c :: b.dropLast := by
  induction a with
  | nil =>
    cases b with
    | nil => exact absurd rfl h
    | cons z zs => simp
  | cons w ws ih =>
    cases hws : ws ++ c :: b with
    | nil => simp at hws
    | cons u us =>
      rw [List.cons_append, hws, List.dropLast_cons₂, ← hws, ih]
      rfl

theorem numKindBody_classify (body : List Char) :
    (numKindBody body = 1 ↔ (!body.isEmpty && body.all Char.isDigit) = true) ∧
    (numKindBody body = 2 ↔ (match splitChar '.' body with
      | [a, b] => !a.isEmpty && a.all Char.isDigit && !b.isEmpty && b.all Char.isDigit
      | _ => false) = true) ∧
    (numKindBody body = 3 ↔ (!body.dropLast.isEmpty &&
      body.dropLast.all Char.isDigit && body.getLastD ' ' = '.') = true) := by
  cases body with
  | nil =>
    exact ⟨by simp [numKindBody], by simp [numKindBody, splitChar],
      by simp [numKindBody]⟩
  | cons d tl =>
    by_cases hd : d.isDigit
    · -- head is a digit: split on the remainder after the digit run
      have htake : ((d :: tl).takeWhile Char.isDigit).all Char.isDigit :=
        List.all_takeWhile ..
      have htkne : (d :: tl).takeWhile Char.isDigit ≠ [] := by
        simp [List.takeWhile_cons, hd]
      have hcomp : (d :: tl).takeWhile Char.isDigit ++
          (d :: tl).dropWhile Char.isDigit = d :: tl :=
        List.takeWhile_append_dropWhile _ _
      cases hds : (d :: tl).dropWhile Char.isDigit with
      | nil =>
        -- pure digit run
        have hteq : (d :: tl).takeWhile Char.isDigit = d :: tl := by
          have hbe := hcomp
          rwa [hds, List.append_nil] at hbe
        have hall : (d :: tl).all Char.isDigit = true := hteq ▸ htake
        have hknd : numKindBody (d :: tl) = 1 := by
          simp [numKindBody, hd, hds]
        refine ⟨?_, ?_, ?_⟩
        · simp [hknd, hall]
        · rw [hknd, splitChar_not_mem '.' _ (all_digit_not_dot hall)]
          simp
        · rw [hknd]
          constructor
          · omega
          · intro hR
            simp only [Bool.and_eq_true, decide_eq_true_eq] at hR
            have hmem : '.' ∈ d :: tl := by
              have := getLastD_mem (d :: tl) ' ' (by simp)
              rwa [hR.2] at this
            exact absurd hmem (all_digit_not_dot hall)
      | cons e frac =>
        have hint : ((d :: tl).all Char.isDigit) = false := by
          by_contra hc
          simp only [Bool.not_eq_false] at hc
          have hnil : (d :: tl).dropWhile Char.isDigit = [] := by
            rw [List.dropWhile_eq_nil_iff]
            intro x hx
            exact List.all_eq_true.mp hc x hx
          simp [hnil] at hds
        have hehead : e.isDigit = false := by
          have hh := List.head_dropWhile_not Char.isDigit (d :: tl)
          rw [hds] at hh
          simpa using hh (by simp)
        have hbodyEq : d :: tl =
            (d :: tl).takeWhile Char.isDigit ++ e :: frac := by
          have hbe := hcomp
          rw [hds] at hbe
          exact hbe.symm
        by_cases he : e = '.'
        · subst he
          by_cases hfe : frac = []
          · -- trailing dot
            subst hfe
            have hknd : numKindBody (d :: tl) = 3 := by
              simp only [numKindBody]
              rw [if_neg (by simp [hd]), hds]
              rfl
            have hdl : (d :: tl).dropLast = (d :: tl).takeWhile Char.isDigit := by
              conv_lhs => rw [hbodyEq]
              exact List.dropLast_concat
            have hlast : (d :: tl).getLastD ' ' = '.' := by
              conv_lhs => rw [hbodyEq]
              exact List.getLastD_concat _ _ _
            refine ⟨?_, ?_, ?_⟩
            · simp [hknd, hint]
            · rw [hknd]
              constructor
              · omega
              · intro hR
                rw [hbodyEq, splitChar_append_cons '.' _ _
                    (all_digit_not_dot htake), splitChar] at hR
                simp at hR
            · rw [hknd]
              simp only [hdl, hlast]
              simp [htkne, htake]
          · -- something after the dot
            have hfne : frac ≠ [] := hfe
            have hlastf : (d :: tl).getLastD ' ' = frac.getLastD ' ' := by
              conv_lhs => rw [hbodyEq]
              rw [getLastD_append_right _ ('.' :: frac) ' ' ' ' (by simp)]
              rw [List.getLastD_cons]
              cases frac with
              | nil => exact absurd rfl hfne
              | cons z zs => rw [List.getLastD_cons, List.getLastD_cons]
            have hdlmem : '.' ∈ (d :: tl).dropLast := by
              rw [hbodyEq, dropLast_append_cons_ne_nil _ _ _ hfne]
              simp
            by_cases hfd : frac.all Char.isDigit
            · -- genuine decimal
              have hknd : numKindBody (d :: tl) = 2 := by
                simp only [numKindBody]
                rw [if_neg (by simp [hd]), hds]
                simp [hfne, hfd]
              refine ⟨?_, ?_, ?_⟩
              · simp [hknd, hint]
              · rw [hknd, hbodyEq, splitChar_append_cons '.' _ _
                  (all_digit_not_dot htake),
                  splitChar_not_mem '.' _ (all_digit_not_dot hfd)]
                simp [htkne, htake, hfne, hfd]
              · rw [hknd]
                constructor
                · omega
                · intro hR
                  simp only [Bool.and_eq_true, decide_eq_true_eq] at hR
                  have hlmem : frac.getLastD ' ' ∈ frac := getLastD_mem _ _ hfne
                  have hdig := List.all_eq_true.mp hfd _ hlmem
                  rw [← hlastf, hR.2] at hdig
                  exact absurd hdig (by decide)
            · -- junk after the dot
              have hknd : numKindBody (d :: tl) = 0 := by
                simp only [numKindBody]
                rw [if_neg (by simp [hd]), hds]
                simp [hfne, hfd]
              refine ⟨?_, ?_, ?_⟩
              · simp [hknd, hint]
              · rw [hknd]
                constructor
                · omega
                · intro hR
                  revert hR
                  cases hsp : splitChar '.' (d :: tl) with
                  | nil => simp
                  | cons a ps =>
                    cases ps with
                    | nil => simp
                    | cons b ps2 =>
                      cases ps2 with
                      | cons u us => simp
                      | nil =>
                        intro hR
                        simp only [Bool.and_eq_true] at hR
                        have hrec := splitChar_pair '.' _ a b hsp
                        have hdw : (d :: tl).dropWhile Char.isDigit = '.' :: b := by
                          rw [hrec]
                          exact dropWhile_append_all hR.1.1.2 (by decide)
                        rw [hds] at hdw
                        have hfb : frac = b := by
                          injection hdw
                        have hfd2 : frac.all Char.isDigit = true := by
                          rw [hfb]
                          exact hR.2
                        exact (hfd hfd2).elim
              · rw [hknd]
                constructor
                · omega
                · intro hR
                  simp only [Bool.and_eq_true, decide_eq_true_eq] at hR
                  have := List.all_eq_true.mp hR.1.2 _ hdlmem
                  exact absurd this (by decide)
        · -- non-dot, non-digit character after the digit run
          have hknd : numKindBody (d :: tl) = 0 := by
            simp only [numKindBody]
            rw [if_neg (by simp [hd]), hds]
            split
            next heq => exact absurd heq.symm (by simp)
            next fr2 heq =>
              exfalso
              injection heq with h1 h2
              exact he h1
            next => rfl
          refine ⟨?_, ?_, ?_⟩
          · simp [hknd, hint]
          · rw [hknd]
            constructor
            · omega
            · intro hR
              revert hR
              cases hsp : splitChar '.' (d :: tl) with
              | nil => simp
              | cons a ps =>
                cases ps with
                | nil => simp
                | cons b ps2 =>
                  cases ps2 with
                  | cons u us => simp
                  | nil =>
                    intro hR
                    simp only [Bool.and_eq_true] at hR
                    have hrec := splitChar_pair '.' _ a b hsp
                    have hdw : (d :: tl).dropWhile Char.isDigit = '.' :: b := by
                      rw [hrec]
                      exact dropWhile_append_all hR.1.1.2 (by decide)
                    rw [hds] at hdw
                    have hedot : e = '.' := by
                      injection hdw
                    exact absurd hedot he
          · rw [hknd]
            constructor
            · omega
            · intro hR
              simp only [Bool.and_eq_true, decide_eq_true_eq] at hR
              by_cases hfe : frac = []
              · subst hfe
                have hlast : (d :: tl).getLastD ' ' = e := by
                  conv_lhs => rw [hbodyEq]
                  exact List.getLastD_concat _ _ _
                rw [hlast] at hR
                exact absurd hR.2 he
              · have hdlmem : e ∈ (d :: tl).dropLast := by
                  rw [hbodyEq, dropLast_append_cons_ne_nil _ _ _ hfe]
                  simp
                have hed := List.all_eq_true.mp hR.1.2 _ hdlmem
                rw [hed] at hehead
                simp at hehead
    · -- head is not a digit
      have hd' : d.isDigit = false := by simpa using hd
      have hknd : numKindBody (d :: tl) = 0 := by
        simp [numKindBody, hd']
      refine ⟨?_, ?_, ?_⟩
      · rw [hknd]
        constructor
        · omega
        · intro hR
          simp only [Bool.and_eq_true, List.all_cons] at hR
          rw [hR.2.1] at hd'
          simp at hd'
      · rw [hknd]
        constructor
        · omega
        · intro hR
          revert hR
          cases hsp : splitChar '.' (d :: tl) with
          | nil => simp
          | cons a ps =>
            cases ps with
            | nil => simp
            | cons b ps2 =>
              cases ps2 with
              | cons u us => simp
              | nil =>
                intro hR
                simp only [Bool.and_eq_true] at hR
                have hrec := splitChar_pair '.' _ a b hsp
                cases ha : a with
                | nil =>
                  rw [ha] at hR
                  simp at hR
                | cons a0 a2 =>
                  rw [ha] at hrec
                  have hd0 : d = a0 := by
                    injection hrec
                  have ha0 : a0.isDigit = true := by
                    have hall2 := hR.1.1.2
                    rw [ha] at hall2
                    exact List.all_eq_true.mp hall2 a0 (by simp)
                  rw [← hd0] at ha0
                  rw [ha0] at hd'
                  simp at hd'
      · rw [hknd]
        constructor
        · omega
        · intro hR
          simp only [Bool.and_eq_true, decide_eq_true_eq] at hR
          cases tl with
          | nil => simp at hR
          | cons t ts =>
            have hdm : d ∈ (d :: t :: ts).dropLast := by
              rw [List.dropLast_cons₂]
              simp
            have hddig := List.all_eq_true.mp hR.1.2 _ hdm
            rw [hddig] at hd'
            simp at hd'

theorem detectNumberKind_eq_body (c0 : Char) (rest : List Char)
    (h : ¬ (c0 = '-' ∧ rest = [])) :
    detectNumberKind (c0 :: rest) =
      numKindBody (if c0 = '-' then rest else c0 :: rest) := by
  by_cases hm : c0 = '-'
  · subst hm
    cases rest with
    | nil => exact absurd ⟨rfl, rfl⟩ h
    | cons a tl => rfl
  · simp only [detectNumberKind]
    rw [if_neg (fun hc => hm hc.1), if_neg hm]
    rfl

theorem detectNumberKind_classify (l : List Char) :
    (detectNumberKind l = 1 ↔ isIntTok l = true) ∧
    (detectNumberKind l = 2 ↔ isDecTok l = true) ∧
    (detectNumberKind l = 3 ↔ isTrailDotTok l = true) := by
  cases l with
  | nil =>
    exact ⟨by simp [detectNumberKind, isIntTok],
      by simp [detectNumberKind, isDecTok, splitChar],
      by simp [detectNumberKind, isTrailDotTok]⟩
  | cons c0 rest =>
    by_cases hm : c0 = '-'
    · subst hm
      cases rest with
      | nil => exact ⟨by decide, by decide, by decide⟩
      | cons a tl =>
        have hbody := detectNumberKind_eq_body '-' (a :: tl) (by simp)
        rw [if_pos rfl] at hbody
        have hc := numKindBody_classify (a :: tl)
        refine ⟨?_, ?_, ?_⟩
        · rw [hbody, hc.1]
          simp [isIntTok]
        · rw [hbody, hc.2.1]
          simp only [isDecTok]
          norm_num
        · rw [hbody, hc.2.2]
          simp [isTrailDotTok]
    · have hbody := detectNumberKind_eq_body c0 rest (fun hc => hm hc.1)
      rw [if_neg hm] at hbody
      have hc := numKindBody_classify (c0 :: rest)
      refine ⟨?_, ?_, ?_⟩
      · rw [hbody, hc.1]
        simp [isIntTok, hm]
      · rw [hbody, hc.2.1]
        simp [isDecTok, hm]
      · rw [hbody, hc.2.2]
        simp [isTrailDotTok, hm]

theorem parseFieldValue_scalar_decimal (sch : Schema) (fuel : Nat) (s : String)
    (ws : List ErrCode) (hne : s ≠ "") (hnt : s ≠ "~")
    (hnb : ¬ (s.data.headD ' ' = '[' ∧ s.data.getLastD ' ' = ']'))
    (hnm : ¬ (s.data.headD ' ' = '{' ∧ s.data.getLastD ' ' = '}'))
    (hnp : ¬ (s.data.headD ' ' = '(' ∧ s.data.getLastD ' ' = ')'))
    (hnq : ¬ (s.data.headD ' ' = '"' ∧ s.data.getLastD ' ' = '"')) :
    parseFieldValue sch (fuel + 1) s (some { typeExpr := some "decimal" }) ws =
      (if detectNumberKind s.data = 3 then
        .ok (.num (parseIntJs s.data.dropLast : Int), ws)
      else if detectNumberKind s.data = 1 ∨ detectNumberKind s.data = 2 then
        .ok (.num (parseFloatJs s.data), ws)
      else .ok (.str s, ws)) := by
  obtain ⟨c0, r, hsd⟩ : ∃ c0 r, s.data = c0 :: r := by
    cases hsd : s.data with
    | nil =>
      exact absurd (by rwa [String.ext_iff]) hne
    | cons a b => exact ⟨a, b, rfl⟩
  rw [hsd] at hnb hnm hnp hnq
  simp only [List.headD_cons] at hnb hnm hnp hnq
  rw [parseFieldValue]
  rw [if_neg hne, if_neg hnt, hsd]
  dsimp only
  rw [if_neg hnb, if_neg hnm, if_neg hnp, if_neg hnq]
  rw [if_neg (by simp), if_neg (by decide), if_neg (by decide), if_pos (by rfl)]
  rw [← hsd]
  by_cases h3 : detectNumberKind s.data = 3
  · rw [if_pos h3, if_pos h3]
    rfl
  · rw [if_neg h3, if_neg h3]
    by_cases h12 : detectNumberKind s.data = 1 ∨ detectNumberKind s.data = 2
    · rw [if_pos h12, if_pos h12]
      rfl
    · rw [if_neg h12, if_neg h12]
      rfl

/-- Claim C7 (amended): for every unquoted scalar token (non-empty, not `~`,
not bracketed, braced, parenthesised or quoted) coerced against a field declared
`decimal`: an optionally minus-signed digit run with a single trailing dot
(such as `500.` or `-500.`) is coerced to the integer value of its part before
the dot; an optionally minus-signed digit run, with or without a fractional
part, is coerced to the corresponding number; any other token passes through as
the raw string.  (The amendment adds the optional leading minus sign, which the
original claim's "token of digits" wording excludes.) -/
theorem C7_decimal_coercion (sch : Schema) (fuel : Nat) (s : String)
    (ws : List ErrCode) (hne : s ≠ "") (hnt : s ≠ "~")
    (hnb : ¬ (s.data.headD ' ' = '[' ∧ s.data.getLastD ' ' = ']'))
    (hnm : ¬ (s.data.headD ' ' = '{' ∧ s.data.getLastD ' ' = '}'))
    (hnp : ¬ (s.data.headD ' ' = '(' ∧ s.data.getLastD ' ' = ')'))
    (hnq : ¬ (s.data.headD ' ' = '"' ∧ s.data.getLastD ' ' = '"')) :
    (isTrailDotTok s.data = true →
      parseFieldValue sch (fuel + 1) s (some { typeExpr := some "decimal" }) ws =
        .ok (.num (parseIntJs s.data.dropLast : Int), ws)) ∧
    (isIntTok s.data = true ∨ isDecTok s.data = true →
      parseFieldValue sch (fuel + 1) s (some { typeExpr := some "decimal" }) ws =
        .ok (.num (parseFloatJs s.data), ws)) ∧
    (isIntTok s.data = false → isDecTok s.data = false →
      isTrailDotTok s.data = false →
      parseFieldValue sch (fuel + 1) s (some { typeExpr := some "decimal" }) ws =
        .ok (.str s, ws)) := by
  have heval := parseFieldValue_scalar_decimal sch fuel s ws hne hnt hnb hnm hnp hnq
  have hcls := detectNumberKind_classify s.data
  refine ⟨fun ht => ?_, fun h12 => ?_, fun hi hd ht => ?_⟩
  · rw [heval, if_pos (hcls.2.2.mpr ht)]
  · have hk : detectNumberKind s.data = 1 ∨ detectNumberKind s.data = 2 := by
      rcases h12 with h1 | h2
      · exact Or.inl (hcls.1.mpr h1)
      · exact Or.inr (hcls.2.1.mpr h2)
    rw [heval, if_neg (by rcases hk with h | h <;> omega), if_pos hk]
  · have h1 : detectNumberKind s.data ≠ 1 :=
      fun hh => absurd (hcls.1.mp hh) (by simp [hi])
    have h2 : detectNumberKind s.data ≠ 2 :=
      fun hh => absurd (hcls.2.1.mp hh) (by simp [hd])
    have h3 : detectNumberKind s.data ≠ 3 :=
      fun hh => absurd (hcls.2.2.mp hh) (by simp [ht])
    rw [heval, if_neg h3, if_neg (by rintro (h | h) <;> omega)]

/-- Witness for the amended C7 at the token `500.` (the documented quirk:
coerced as the integer 500). -/
theorem C7_decimal_coercion_witness :
    parseFieldValue {} 5 "500." (some { typeExpr := some "decimal" }) [] =
      .ok (.num ((500 : Int) : Rat), []) := by
  have h := (C7_decimal_coercion {} 4 "500." [] (by decide) (by decide)
    (by decide) (by decide) (by decide) (by decide)).1 (by decide)
  exact h.trans (by rfl)

/-- A required field whose back-filled value is null, at some position. -/
theorem backfillGo_lax (sch : Schema) (hlax : sch.mode ≠ "strict")
    (fields : List FieldDef) (vs : List Value) (ws : List ErrCode) :
    ∃ ws', backfillGo sch fields vs ws = .ok (backfillPure fields vs, ws') := by
  induction fields generalizing vs ws with
  | nil => exact ⟨ws, rfl⟩
  | cons f fs ih =>
    rw [backfillGo]
    by_cases hP : (f.isRequired = true ∧ (backfillValue f vs.head?).isNull = true)
    · rw [if_pos hP, if_neg hlax]
      obtain ⟨ws2, hw⟩ := ih (vs.drop 1) (ws ++ [ErrCode.missingRequiredField])
      refine ⟨ws2, ?_⟩
      rw [PM_bind_apply, PM_addWarning_apply]
      show (backfillGo sch fs (vs.drop 1) >>= fun rest =>
        pure (backfillValue f vs.head? :: rest)) (ws ++ [ErrCode.missingRequiredField]) = _
      rw [PM_bind_apply, hw]
      rfl
    · rw [if_neg hP]
      obtain ⟨ws2, hw⟩ := ih (vs.drop 1) ws
      refine ⟨ws2, ?_⟩
      rw [PM_bind_apply, PM_pure_apply]
      show (backfillGo sch fs (vs.drop 1) >>= fun rest =>
        pure (backfillValue f vs.head? :: rest)) ws = _
      rw [PM_bind_apply, hw]
      rfl

theorem backfillGo_strict (sch : Schema) (hstrict : sch.mode = "strict")
    (fields : List FieldDef) (vs : List Value) (ws : List ErrCode) :
    ((∃ i g, fields.get? i = some g ∧ g.isRequired = true ∧
        (backfillValue g (vs.get? i)).isNull = true) →
      backfillGo sch fields vs ws = .error .missingRequiredField) ∧
    ((¬ ∃ i g, fields.get? i = some g ∧ g.isRequired = true ∧
        (backfillValue g (vs.get? i)).isNull = true) →
      backfillGo sch fields vs ws = .ok (backfillPure fields vs, ws)) := by
  induction fields generalizing vs ws with
  | nil =>
    constructor
    · rintro ⟨i, g, hg, -⟩
      simp at hg
    · intro
      rfl
  | cons f fs ih =>
    rw [backfillGo]
    by_cases hP : (f.isRequired = true ∧ (backfillValue f vs.head?).isNull = true)
    · constructor
      · intro
        rw [if_pos hP, if_pos hstrict]
        rfl
      · intro hnEx
        exact absurd ⟨0, f, rfl, hP.1, by rw [List.get?_zero]; exact hP.2⟩ hnEx
    · rw [if_neg hP]
      have ihs := ih (vs.drop 1) ws
      constructor
      · rintro ⟨i, g, h1, h2, h3⟩
        have hEx : ∃ i g, fs.get? i = some g ∧ g.isRequired = true ∧
            (backfillValue g ((vs.drop 1).get? i)).isNull = true := by
          cases i with
          | zero =>
            rw [List.get?_zero] at h3
            simp only [List.get?_cons_zero] at h1
            obtain rfl : f = g := by injection h1
            exact absurd ⟨h2, h3⟩ hP
          | succ j =>
            refine ⟨j, g, by simpa using h1, h2, ?_⟩
            rw [List.get?_drop, Nat.add_comm]
            simpa using h3
        rw [PM_bind_apply, PM_pure_apply]
        show (backfillGo sch fs (vs.drop 1) >>= fun rest =>
          pure (backfillValue f vs.head? :: rest)) ws = _
        rw [PM_bind_apply, ihs.1 hEx]
        rfl
      · intro hnEx
        have hnEx2 : ¬ ∃ i g, fs.get? i = some g ∧ g.isRequired = true ∧
            (backfillValue g ((vs.drop 1).get? i)).isNull = true := by
          rintro ⟨j, g, h1, h2, h3⟩
          refine hnEx ⟨j + 1, g, by simpa using h1, h2, ?_⟩
          rw [List.get?_drop, Nat.add_comm] at h3
          simpa using h3
        rw [PM_bind_apply, PM_pure_apply]
        show (backfillGo sch fs (vs.drop 1) >>= fun rest =>
          pure (backfillValue f vs.head? :: rest)) ws = _
        rw [PM_bind_apply, ihs.2 hnEx2]
        rfl

theorem parseSingleRecord_known (sch : Schema) (fuel : Nat) (a vs : String)
    (ln : Nat) (ws : List ErrCode) (td : TypeDef) (values0 : List Value)
    (ws1 : List ErrCode) (hty : sch.getType a = some td)
    (hv : parseFieldValues sch fuel vs (some td) ws = .ok (values0, ws1)) :
    parseSingleRecord sch fuel a vs ln ws =
      (strictCountCheck sch td (laxTypePatch sch td values0) >>= fun _ =>
        backfillGo sch td.fields (laxTypePatch sch td values0) >>= fun fv =>
          (pure ⟨a, fv, ln⟩ : PM MaxiRecord)) ws1 := by
  rw [parseSingleRecord, hty]
  show (parseFieldValues sch fuel vs (some td) >>= fun values0 => _) ws = _
  rw [PM_bind_apply, hv]
  rfl

theorem backfillPure_length (fields : List FieldDef) (vs : List Value) :
    (backfillPure fields vs).length = fields.length := by
  induction fields generalizing vs with
  | nil => rfl
  | cons f fs ih => simp [backfillPure, ih]

theorem backfillPure_take (fields : List FieldDef) (vs : List Value) :
    backfillPure fields vs = backfillPure fields (vs.take fields.length) := by
  induction fields generalizing vs with
  | nil => rfl
  | cons f fs ih =>
    cases vs with
    | nil => simp [backfillPure]
    | cons v vt =>
      rw [List.length_cons, List.take_succ_cons]
      simp only [backfillPure, List.head?_cons, List.drop_succ_cons,
        List.drop_zero]
      rw [ih vt]

theorem parseSingleRecord_known_pfvErr (sch : Schema) (fuel : Nat)
    (a vs : String) (ln : Nat) (ws : List ErrCode) (td : TypeDef) (e : ErrCode)
    (hty : sch.getType a = some td)
    (hv : parseFieldValues sch fuel vs (some td) ws = .error e) :
    parseSingleRecord sch fuel a vs ln ws = .error e := by
  rw [parseSingleRecord, hty]
  show (parseFieldValues sch fuel vs (some td) >>= fun values0 => _) ws = _
  rw [PM_bind_apply, hv]
  rfl

/-- Claim C9: for every successfully parsed record whose alias names a known
type, the resulting record's values list has exactly as many entries as the
type's final field list (absent or empty positions back-filled with the default
or null, excess positions dropped). -/
theorem C9_record_value_count (sch : Schema) (fuel : Nat) (a vs : String)
    (ln : Nat) (ws : List ErrCode) (td : TypeDef) (r : MaxiRecord)
    (ws2 : List ErrCode) (hty : sch.getType a = some td)
    (hok : parseSingleRecord sch fuel a vs ln ws = .ok (r, ws2)) :
    r.values.length = td.fields.length := by
  cases hpv : parseFieldValues sch fuel vs (some td) ws with
  | error e =>
    rw [parseSingleRecord_known_pfvErr sch fuel a vs ln ws td e hty hpv] at hok
    simp at hok
  | ok p =>
    obtain ⟨values0, ws1⟩ := p
    rw [parseSingleRecord_known sch fuel a vs ln ws td values0 ws1 hty hpv] at hok
    set values := laxTypePatch sch td values0 with hvalues
    cases hchk : strictCountCheck sch td values ws1 with
    | error e =>
      rw [PM_bind_apply, hchk] at hok
      simp [Except.bind] at hok
    | ok u =>
      obtain ⟨u1, ws3⟩ := u
      rw [PM_bind_apply, hchk] at hok
      simp only [Except.bind] at hok
      by_cases hstrict : sch.mode = "strict"
      · have hbf := backfillGo_strict sch hstrict td.fields values ws3
        by_cases hEx : ∃ i g, td.fields.get? i = some g ∧ g.isRequired = true ∧
            (backfillValue g (values.get? i)).isNull = true
        · rw [PM_bind_apply, hbf.1 hEx] at hok
          simp [Except.bind] at hok
        · rw [PM_bind_apply, hbf.2 hEx] at hok
          simp only [Except.bind, PM_pure_apply] at hok
          injection hok with h
          injection h with h1 h2
          rw [← h1]
          exact backfillPure_length td.fields values
      · obtain ⟨ws4, hbf⟩ := backfillGo_lax sch hstrict td.fields values ws3
        rw [PM_bind_apply, hbf] at hok
        simp only [Except.bind, PM_pure_apply] at hok
        injection hok with h
        injection h with h1 h2
        rw [← h1]
        exact backfillPure_length td.fields values

/-- Witness for C9: a concrete lax-mode record of the two-field type `E`
parses to exactly two stored values. -/
theorem C9_record_value_count_witness :
    (⟨"E", [.str "a", .str "b"], 1⟩ : MaxiRecord).values.length =
      tdEvent.fields.length :=
  C9_record_value_count schEvent 10 "E" "a|b" 1 [] tdEvent
    ⟨"E", [.str "a", .str "b"], 1⟩ [] rfl rfl

/-- Claim C6: in lax mode, for a record of a known type whose field list
contains a field literally named `type` (first such field, position `j`), if the
supplied value count is exactly one less than the field count, a value is
synthesized at position `j`, preferring the field's declared default, then the
type's display name lower-cased when the type has one, then the alias
lower-cased; the record then stores the back-filled values of the patched
list. -/
theorem C6_lax_discriminator (sch : Schema) (fuel : Nat) (a vs : String)
    (ln : Nat) (ws : List ErrCode) (td : TypeDef) (values0 : List Value)
    (ws1 : List ErrCode) (j : Nat) (tf : FieldDef)
    (hlax : sch.mode ≠ "strict")
    (hty : sch.getType a = some td)
    (hv : parseFieldValues sch fuel vs (some td) ws = .ok (values0, ws1))
    (hj : td.fields.findIdx? (fun f => f.name = "type") = some j)
    (htf : td.fields.get? j = some tf)
    (hlen : values0.length = td.fields.length - 1) :
    ∃ r ws2, parseSingleRecord sch fuel a vs ln ws = .ok (r, ws2) ∧
      r.values = backfillPure td.fields (values0.insertIdx j
        (match tf.defaultValue with
         | some d => Value.str d
         | none =>
           match td.name with
           | some n =>
             if n = "" then Value.str (jsToLower td.aliasName)
             else Value.str (jsToLower n)
           | none => Value.str (jsToLower td.aliasName))) := by
  have hpatch : laxTypePatch sch td values0 =
      values0.insertIdx j (inferredTypeValue td tf) := by
    rw [laxTypePatch, if_pos hlax, hj]
    dsimp only
    rw [if_pos hlen, htf]
  have hchk : strictCountCheck sch td
      (values0.insertIdx j (inferredTypeValue td tf)) = pure () := by
    rw [strictCountCheck, if_neg (by simpa using hlax)]
  obtain ⟨ws2, hbf⟩ := backfillGo_lax sch hlax td.fields
    (values0.insertIdx j (inferredTypeValue td tf)) ws1
  refine ⟨⟨a, backfillPure td.fields
      (values0.insertIdx j (inferredTypeValue td tf)), ln⟩, ws2, ?_, rfl⟩
  rw [parseSingleRecord_known sch fuel a vs ln ws td values0 ws1 hty hv, hpatch,
    PM_bind_apply, hchk, PM_pure_apply]
  simp only [Except.bind]
  rw [PM_bind_apply, hbf]
  simp only [Except.bind, PM_pure_apply]

/-- Witness for C6: the lax type `E:Event(type|x)` given one value synthesizes
`event` (display name lower-cased) at the `type` position. -/
theorem C6_lax_discriminator_witness :
    ∃ r ws2, parseSingleRecord schEvent 10 "E" "7" 1 [] = .ok (r, ws2) ∧
      r.values = backfillPure tdEvent.fields
        ([Value.num 7].insertIdx 0 (Value.str "event")) := by
  obtain ⟨r, ws2, h1, h2⟩ := C6_lax_discriminator schEvent 10 "E" "7" 1 [] tdEvent
    [Value.num 7] [] 0 { name := "type" } (by decide) rfl rfl rfl rfl rfl
  exact ⟨r, ws2, h1, h2.trans (by rfl)⟩

theorem laxTypePatch_strict (sch : Schema) (hstrict : sch.mode = "strict")
    (td : TypeDef) (vs : List Value) : laxTypePatch sch td vs = vs := by
  rw [laxTypePatch, if_neg (by simp [hstrict])]

theorem laxTypePatch_len_ne (sch : Schema) (td : TypeDef) (vs : List Value)
    (h : vs.length ≠ td.fields.length - 1) : laxTypePatch sch td vs = vs := by
  rw [laxTypePatch]
  by_cases hm : sch.mode ≠ "strict"
  · rw [if_pos hm]
    cases hj : td.fields.findIdx? (fun f => f.name = "type") with
    | none => rfl
    | some j =>
      dsimp only
      rw [if_neg h]
  · rw [if_neg hm]

/-- Claim C5 counterexample: in the strict fixture schema, type `T` has a
required first field without a default and a defaulted second field. The
record content `""` yields one supplied token (fewer than the two fields), and
no field at a position beyond the supplied count is required without a default
— yet parsing is fatal with the missing-required-field code, raised by the
back-fill loop because the supplied token for the required first field is
empty. The claim's "exactly when some field beyond the supplied count is
required and has no default" is therefore false. -/
theorem C5_counterexample :
    schStrict.mode = "strict" ∧
    schStrict.getType "T" = some tdReqDef ∧
    parseFieldValues schStrict 10 "" (some tdReqDef) [] =
      .ok ([Value.null], []) ∧
    (1 < tdReqDef.fields.length ∧
      (tdReqDef.fields.drop 1).find?
        (fun f => f.isRequired ∧ f.defaultValue = none) = none) ∧
    parseSingleRecord schStrict 10 "T" "" 1 [] =
      .error .missingRequiredField :=
  ⟨rfl, rfl, rfl, ⟨by decide, rfl⟩, rfl⟩

/-- Claim C5 (amended): for a record of a known type in strict mode, more
supplied tokens than fields is fatal with the schema-mismatch code; with at
most as many tokens as fields, the parse is fatal with the
missing-required-field code exactly when some required field's back-filled
value is null — covering both fields beyond the supplied count with no
default and supplied-but-empty required fields. In lax mode, excess tokens
never cause an error and the stored values ignore every token past the field
count. -/
theorem C5_strict_counts (sch : Schema) (fuel : Nat) (a vs : String)
    (ln : Nat) (ws : List ErrCode) (td : TypeDef) (values0 : List Value)
    (ws1 : List ErrCode) (hty : sch.getType a = some td)
    (hv : parseFieldValues sch fuel vs (some td) ws = .ok (values0, ws1)) :
    (sch.mode = "strict" → td.fields.length < values0.length →
      parseSingleRecord sch fuel a vs ln ws = .error .schemaMismatch) ∧
    (sch.mode = "strict" → values0.length ≤ td.fields.length →
      (parseSingleRecord sch fuel a vs ln ws = .error .missingRequiredField ↔
        ∃ i g, td.fields.get? i = some g ∧ g.isRequired = true ∧
          (backfillValue g (values0.get? i)).isNull = true)) ∧
    (sch.mode ≠ "strict" → td.fields.length < values0.length →
      ∃ r ws2, parseSingleRecord sch fuel a vs ln ws = .ok (r, ws2) ∧
        r.values = backfillPure td.fields
          (values0.take td.fields.length)) := by
  have hknown := parseSingleRecord_known sch fuel a vs ln ws td values0 ws1
    hty hv
  refine ⟨?_, ?_, ?_⟩
  · intro hstrict hgt
    rw [hknown, laxTypePatch_strict sch hstrict]
    have hchk : strictCountCheck sch td values0 = throw .schemaMismatch := by
      rw [strictCountCheck, if_pos hstrict, if_neg (by omega), if_pos hgt]
    rw [PM_bind_apply, hchk, PM_throw_apply]
    rfl
  · intro hstrict hle
    rw [hknown, laxTypePatch_strict sch hstrict]
    rcases Nat.lt_or_ge values0.length td.fields.length with hlt | hge
    · cases hfind : (td.fields.drop values0.length).find?
          (fun f => f.isRequired ∧ f.defaultValue = none) with
      | some g =>
        have hp := List.find?_some hfind
        simp only [decide_eq_true_eq, Bool.and_eq_true] at hp
        obtain ⟨hreq, hdef⟩ : g.isRequired = true ∧ g.defaultValue = none := by
          simpa using hp
        have hmem := List.mem_of_find?_eq_some hfind
        obtain ⟨k, hk⟩ := List.mem_iff_get?.1 hmem
        have hgi : td.fields.get? (values0.length + k) = some g := by
          rw [← List.get?_drop]
          exact hk
        have hvi : values0.get? (values0.length + k) = none :=
          List.get?_eq_none.mpr (by omega)
        have hex : ∃ i g, td.fields.get? i = some g ∧ g.isRequired = true ∧
            (backfillValue g (values0.get? i)).isNull = true := by
          refine ⟨values0.length + k, g, hgi, hreq, ?_⟩
          rw [hvi]
          simp [backfillValue, hdef, Value.isNull]
        have hchk : strictCountCheck sch td values0 =
            throw .missingRequiredField := by
          rw [strictCountCheck, if_pos hstrict, if_pos hlt, hfind]
        rw [PM_bind_apply, hchk, PM_throw_apply]
        simp only [Except.bind]
        exact ⟨fun _ => hex, fun _ => by simp⟩
      | none =>
        have hchk : strictCountCheck sch td values0 = pure () := by
          rw [strictCountCheck, if_pos hstrict, if_pos hlt, hfind]
        rw [PM_bind_apply, hchk, PM_pure_apply]
        simp only [Except.bind]
        by_cases hex : ∃ i g, td.fields.get? i = some g ∧
            g.isRequired = true ∧
            (backfillValue g (values0.get? i)).isNull = true
        · rw [PM_bind_apply,
            (backfillGo_strict sch hstrict td.fields values0 ws1).1 hex]
          simp only [Except.bind]
          exact ⟨fun _ => hex, fun _ => by simp⟩
        · rw [PM_bind_apply,
            (backfillGo_strict sch hstrict td.fields values0 ws1).2 hex]
          simp only [Except.bind, PM_pure_apply]
          exact iff_of_false (fun h => Except.noConfusion h) hex
    · have hchk : strictCountCheck sch td values0 = pure () := by
        rw [strictCountCheck, if_pos hstrict, if_neg (by omega),
          if_neg (by omega)]
      rw [PM_bind_apply, hchk, PM_pure_apply]
      simp only [Except.bind]
      by_cases hex : ∃ i g, td.fields.get? i = some g ∧
          g.isRequired = true ∧
          (backfillValue g (values0.get? i)).isNull = true
      · rw [PM_bind_apply,
          (backfillGo_strict sch hstrict td.fields values0 ws1).1 hex]
        simp only [Except.bind]
        exact ⟨fun _ => hex, fun _ => by simp⟩
      · rw [PM_bind_apply,
          (backfillGo_strict sch hstrict td.fields values0 ws1).2 hex]
        simp only [Except.bind, PM_pure_apply]
        exact iff_of_false (fun h => Except.noConfusion h) hex
  · intro hlax hgt
    have hne : values0.length ≠ td.fields.length - 1 := by omega
    rw [hknown, laxTypePatch_len_ne sch td values0 hne]
    have hchk : strictCountCheck sch td values0 = pure () := by
      rw [strictCountCheck, if_neg (by simpa using hlax)]
    obtain ⟨ws2, hbf⟩ := backfillGo_lax sch hlax td.fields values0 ws1
    refine ⟨⟨a, backfillPure td.fields values0, ln⟩, ws2, ?_, ?_⟩
    · rw [PM_bind_apply, hchk, PM_pure_apply]
      simp only [Except.bind]
      rw [PM_bind_apply, hbf]
      simp only [Except.bind, PM_pure_apply]
    · exact backfillPure_take td.fields values0

/-- Witness for C5 (amended): three tokens against the two-field strict type
`T` is fatal with the schema-mismatch code. -/
theorem C5_strict_counts_witness :
    parseSingleRecord schStrict 10 "T" "1|2|3" 1 [] =
      .error .schemaMismatch :=
  (C5_strict_counts schStrict 10 "T" "1|2|3" 1 [] tdReqDef
    [Value.str "1", Value.str "2", Value.str "3"] [] rfl rfl).1 rfl
    (by decide)

theorem parseSchemaLines_imports_mono
    (loader : Option (String → List SchemaLine)) (fuel : Nat)
    (st : ImportState) (lines : List SchemaLine) (st' : ImportState)
    (h : parseSchemaLines loader fuel st lines = .ok st') :
    ∃ t, st'.schema.imports = st.schema.imports ++ t := by
  induction fuel generalizing st lines st' with
  | zero => simp [parseSchemaLines] at h
  | succ fuel ih =>
    cases lines with
    | nil =>
      simp only [parseSchemaLines] at h
      injection h with h
      exact ⟨[], by rw [← h]; simp⟩
    | cons l rest =>
      cases l with
      | typeDecl td =>
        simp only [parseSchemaLines] at h
        by_cases hdup : st.schema.hasType td.aliasName = true
        · rw [if_pos hdup] at h
          exact absurd h (by simp)
        · rw [if_neg hdup] at h
          obtain ⟨t, ht⟩ := ih _ _ _ h
          exact ⟨t, by simpa using ht⟩
      | schemaDirective p =>
        simp only [parseSchemaLines] at h
        by_cases hp : p ∈ st.loadingStack
        · rw [if_pos hp] at h
          exact ih _ _ _ h
        · rw [if_neg hp] at h
          cases loader with
          | none => simp at h
          | some ld =>
            dsimp only at h
            cases hin : parseSchemaLines (some ld) fuel
                { loadingStack := p :: st.loadingStack,
                  schema := { st.schema with
                    imports := st.schema.imports ++ [p] } } (ld p) with
            | error e =>
              rw [hin] at h
              exact absurd h (by simp)
            | ok st2 =>
              rw [hin] at h
              obtain ⟨t1, ht1⟩ := ih _ _ _ hin
              obtain ⟨t2, ht2⟩ := ih _ _ _ h
              refine ⟨[p] ++ t1 ++ t2, ?_⟩
              simp only at ht1 ht2
              rw [ht2, ht1]
              simp

/-- Claim C1 counterexample: a `@schema:a` directive encountered while `a` is
already in the shared currently-loading set leaves the import list untouched
(the circular-import check returns before the `imports.push`), so the path is
not appended unconditionally. -/
theorem C1_counterexample :
    parseSchemaLines (some exLoader) 2 ⟨["a"], {}⟩ [.schemaDirective "a"] =
      .ok ⟨["a"], {}⟩ ∧
    ({} : Schema).imports = [] :=
  ⟨rfl, rfl⟩

/-- Claim C1 (amended): a `@schema:PATH` directive whose path is already in
the shared currently-loading set is silently skipped — the parse continues on
the remaining lines in the very same state, so no error is raised, no import
is appended and no type definitions are added for it; a directive whose path
is not currently loading does get its path appended, and the appended path
survives into the final import list of any successful parse. -/
theorem C1_import_skip (loader : Option (String → List SchemaLine))
    (fuel : Nat) (st : ImportState) (p : String) (rest : List SchemaLine)
    (st' : ImportState) :
    (p ∈ st.loadingStack →
      parseSchemaLines loader (fuel + 1) st (.schemaDirective p :: rest) =
        parseSchemaLines loader fuel st rest) ∧
    (p ∉ st.loadingStack →
      parseSchemaLines loader (fuel + 1) st (.schemaDirective p :: rest) =
        .ok st' →
      p ∈ st'.schema.imports) := by
  constructor
  · intro hp
    simp only [parseSchemaLines]
    rw [if_pos hp]
  · intro hp h
    simp only [parseSchemaLines] at h
    rw [if_neg hp] at h
    cases loader with
    | none => simp at h
    | some ld =>
      dsimp only at h
      cases hin : parseSchemaLines (some ld) fuel
          { loadingStack := p :: st.loadingStack,
            schema := { st.schema with
              imports := st.schema.imports ++ [p] } } (ld p) with
      | error e =>
        rw [hin] at h
        exact absurd h (by simp)
      | ok st2 =>
        rw [hin] at h
        obtain ⟨t1, ht1⟩ := parseSchemaLines_imports_mono _ _ _ _ _ hin
        obtain ⟨t2, ht2⟩ := parseSchemaLines_imports_mono _ _ _ _ _ h
        simp only at ht1 ht2
        rw [ht2, ht1]
        simp

/-- Witness for C1 (amended): with the self-importing fixture loader, the
directive `@schema:a` is skipped when `a` is already loading, and a full
parse from a fresh state ends with `a` in the final import list. -/
theorem C1_import_skip_witness :
    (parseSchemaLines (some exLoader) 3 ⟨["a"], {}⟩ [.schemaDirective "a"] =
      parseSchemaLines (some exLoader) 2 ⟨["a"], {}⟩ []) ∧
    "a" ∈ (ImportState.mk []
      { imports := ["a"], types := [{ aliasName := "T" }] }).schema.imports :=
  ⟨(C1_import_skip (some exLoader) 2 ⟨["a"], {}⟩ "a" [] ⟨[], {}⟩).1
      (by simp),
   (C1_import_skip (some exLoader) 9 ⟨[], {}⟩ "a" [] (ImportState.mk []
      { imports := ["a"], types := [{ aliasName := "T" }] })).2
      (by simp) rfl⟩

theorem find?_append_of_some {α : Type} (p : α → Bool) (l1 l2 : List α)
    (x : α) (h : l1.find? p = some x) : (l1 ++ l2).find? p = some x := by
  induction l1 with
  | nil => simp [List.find?] at h
  | cons a t ih =>
    rw [List.cons_append]
    cases hpa : p a with
    | true =>
      rw [List.find?_cons_of_pos _ hpa] at h
      rw [List.find?_cons_of_pos _ hpa]
      exact h
    | false =>
      rw [List.find?_cons_of_neg _ (by simp [hpa])] at h
      rw [List.find?_cons_of_neg _ (by simp [hpa])]
      exact ih h

theorem find?_append_of_none {α : Type} (p : α → Bool) (l1 l2 : List α)
    (h : l1.find? p = none) : (l1 ++ l2).find? p = l2.find? p := by
  induction l1 with
  | nil => rfl
  | cons a t ih =>
    rw [List.cons_append]
    cases hpa : p a with
    | true =>
      rw [List.find?_cons_of_pos _ hpa] at h
      exact absurd h (by simp)
    | false =>
      rw [List.find?_cons_of_neg _ (by simp [hpa])] at h
      rw [List.find?_cons_of_neg _ (by simp [hpa])]
      exact ih h

theorem RExt_refl (st : RState) : RExt st st := ⟨[], by simp⟩

theorem RExt_trans {s1 s2 s3 : RState} (h1 : RExt s1 s2) (h2 : RExt s2 s3) :
    RExt s1 s3 := by
  obtain ⟨t1, ht1⟩ := h1
  obtain ⟨t2, ht2⟩ := h2
  exact ⟨t1 ++ t2, by rw [ht2, ht1, List.append_assoc]⟩

theorem lookupResolved_mono (st st' : RState) (hext : RExt st st')
    (a : String) (fl : List FieldDef) (h : lookupResolved st a = some fl) :
    lookupResolved st' a = some fl := by
  obtain ⟨t, ht⟩ := hext
  unfold lookupResolved at h ⊢
  cases hf : st.resolved.find? (fun p => p.1 = a) with
  | none => rw [hf] at h; simp at h
  | some pr =>
    rw [hf] at h
    rw [ht, find?_append_of_some _ _ _ _ hf]
    exact h

theorem lookupResolved_mono_isSome (st st' : RState) (hext : RExt st st')
    (a : String) (h : (lookupResolved st a).isSome = true) :
    (lookupResolved st' a).isSome = true := by
  obtain ⟨fl, hfl⟩ := Option.isSome_iff_exists.mp h
  rw [lookupResolved_mono st st' hext a fl hfl]
  rfl

theorem lookupResolved_getD_mono (st st' : RState) (hext : RExt st st')
    (a : String) (h : (lookupResolved st a).isSome = true) :
    (lookupResolved st' a).getD [] = (lookupResolved st a).getD [] := by
  obtain ⟨fl, hfl⟩ := Option.isSome_iff_exists.mp h
  rw [hfl, lookupResolved_mono st st' hext a fl hfl]

theorem lookupResolved_entry_cases (st st' : RState) (entry : String)
    (fl : List FieldDef) (hres : st'.resolved = st.resolved ++ [(entry, fl)])
    (a : String) (fl' : List FieldDef) (h : lookupResolved st' a = some fl') :
    lookupResolved st a = some fl' ∨ (a = entry ∧ fl' = fl) := by
  unfold lookupResolved at h ⊢
  rw [hres] at h
  cases hf : st.resolved.find? (fun p => p.1 = a) with
  | some pr =>
    left
    rw [find?_append_of_some _ _ _ _ hf] at h
    exact h
  | none =>
    right
    rw [find?_append_of_none _ _ _ hf] at h
    by_cases hae : entry = a
    · subst hae
      rw [List.find?_cons_of_pos _ (by simp)] at h
      simp at h
      exact ⟨rfl, h.symm⟩
    · rw [List.find?_cons_of_neg _ (by simp [hae])] at h
      simp [List.find?] at h

theorem lookupResolved_entry_isSome (st st' : RState) (entry : String)
    (fl : List FieldDef) (hres : st'.resolved = st.resolved ++ [(entry, fl)]) :
    (lookupResolved st' entry).isSome = true := by
  unfold lookupResolved
  rw [hres]
  cases hf : st.resolved.find? (fun p => p.1 = entry) with
  | some pr => rw [find?_append_of_some _ _ _ _ hf]; rfl
  | none =>
    rw [find?_append_of_none _ _ _ hf, List.find?_cons_of_pos _ (by simp)]
    rfl

theorem resolve_posts (sch : Schema) (fuel : Nat) :
    (∀ a st st', RInv sch st → resolveType sch fuel a st = .ok st' →
      RExt st st' ∧ RInv sch st' ∧
      ∀ td, sch.getType a = some td →
        (lookupResolved st' a).isSome = true) ∧
    (∀ ps st inh st2 inh2, RInv sch st →
      resolveParents sch fuel ps st inh = .ok (st2, inh2) →
      RExt st st2 ∧ RInv sch st2 ∧
      (∀ p ∈ ps, (lookupResolved st2 p).isSome = true) ∧
      inh2 = ps.foldl
        (fun acc p => dedupAppend acc ((lookupResolved st2 p).getD []))
        inh) := by
  induction fuel with
  | zero =>
    constructor
    · intro a st st' _ h
      rw [resolveType] at h
      exact absurd h (by simp)
    · intro ps st inh st2 inh2 _ h
      rw [resolveParents] at h
      exact absurd h (by simp)
  | succ fuel ih =>
    obtain ⟨ihT, ihP⟩ := ih
    constructor
    · intro a st st' hinv h
      rw [resolveType] at h
      by_cases hvd : a ∈ st.visited
      · rw [if_pos hvd] at h
        injection h with h
        subst h
        exact ⟨RExt_refl st, hinv, fun td _ => hinv.1 a hvd⟩
      · rw [if_neg hvd] at h
        by_cases hvg : a ∈ st.visiting
        · rw [if_pos hvg] at h
          exact absurd h (by simp)
        · rw [if_neg hvg] at h
          cases hty : sch.getType a with
          | none =>
            rw [hty] at h
            dsimp only at h
            injection h with h
            subst h
            exact ⟨RExt_refl st, hinv, fun td htd => absurd htd (by simp)⟩
          | some td =>
            rw [hty] at h
            dsimp only at h
            by_cases hlk : (lookupResolved st a).isSome = true
            · rw [if_pos hlk] at h
              injection h with h
              subst h
              exact ⟨RExt_refl st, hinv, fun _ _ => hlk⟩
            · rw [if_neg hlk] at h
              cases hrp : resolveParents sch fuel td.parents
                  { st with visiting := a :: st.visiting } [] with
              | error e =>
                rw [hrp] at h
                exact absurd h (by simp)
              | ok pr =>
                obtain ⟨stB, inherited⟩ := pr
                rw [hrp] at h
                dsimp only at h
                injection h with h
                have hinvA : RInv sch { st with visiting := a :: st.visiting } :=
                  hinv
                obtain ⟨hext1, hinv1, hsome1, hinh⟩ :=
                  ihP td.parents _ [] stB inherited hinvA hrp
                subst h
                have hres : (RState.mk
                    (stB.resolved ++ [(a, overlayOwn inherited td.fields)])
                    (stB.visiting.erase a) (a :: stB.visited)).resolved =
                    stB.resolved ++ [(a, overlayOwn inherited td.fields)] := rfl
                have hextB : RExt stB (RState.mk
                    (stB.resolved ++ [(a, overlayOwn inherited td.fields)])
                    (stB.visiting.erase a) (a :: stB.visited)) :=
                  ⟨[(a, overlayOwn inherited td.fields)], rfl⟩
                refine ⟨RExt_trans hext1 hextB, ⟨?_, ?_⟩, fun _ _ =>
                  lookupResolved_entry_isSome stB _ a _ hres⟩
                · intro b hb
                  rcases List.mem_cons.mp hb with rfl | hb'
                  · exact lookupResolved_entry_isSome stB _ b _ hres
                  · exact lookupResolved_mono_isSome stB _ hextB b
                      (hinv1.1 b hb')
                · intro b fl hfl
                  rcases lookupResolved_entry_cases stB _ a _ hres b fl hfl
                    with hold | ⟨hba, hfle⟩
                  · obtain ⟨td', hty', heq', hpar'⟩ := hinv1.2 b fl hold
                    refine ⟨td', hty', ?_, fun p hp =>
                      lookupResolved_mono_isSome stB _ hextB p (hpar' p hp)⟩
                    rw [heq']
                    have hmapeq : td'.parents.map
                        (fun p => (lookupResolved (RState.mk
                          (stB.resolved ++
                            [(a, overlayOwn inherited td.fields)])
                          (stB.visiting.erase a) (a :: stB.visited)) p).getD
                            []) =
                        td'.parents.map
                          (fun p => (lookupResolved stB p).getD []) :=
                      List.map_congr_left (fun p hp =>
                        lookupResolved_getD_mono stB _ hextB p (hpar' p hp))
                    rw [hmapeq]
                  · refine ⟨td, ?_, ?_, fun p hp =>
                      lookupResolved_mono_isSome stB _ hextB p
                        (hsome1 p hp)⟩
                    · rw [hba]; exact hty
                    have hmapeq : td.parents.map
                        (fun p => (lookupResolved (RState.mk
                          (stB.resolved ++
                            [(a, overlayOwn inherited td.fields)])
                          (stB.visiting.erase a) (a :: stB.visited)) p).getD
                            []) =
                        td.parents.map
                          (fun p => (lookupResolved stB p).getD []) :=
                      List.map_congr_left (fun p hp =>
                        lookupResolved_getD_mono stB _ hextB p (hsome1 p hp))
                    rw [hfle, claimMergedFields, hmapeq, List.foldl_map]
                    rw [← hinh]
    · intro ps st inh st2 inh2 hinv h
      cases ps with
      | nil =>
        rw [resolveParents] at h
        injection h with h
        injection h with h1 h2
        subst h1
        subst h2
        exact ⟨RExt_refl st, hinv, by simp, rfl⟩
      | cons p ps =>
        rw [resolveParents] at h
        cases hty : sch.getType p with
        | none =>
          rw [hty] at h
          exact absurd h (by simp)
        | some ptd =>
          rw [hty] at h
          dsimp only at h
          cases hrt : resolveType sch fuel p st with
          | error e =>
            rw [hrt] at h
            exact absurd h (by simp)
          | ok stA =>
            rw [hrt] at h
            dsimp only at h
            obtain ⟨hext1, hinv1, hsome1⟩ := ihT p st stA hinv hrt
            have hps : (lookupResolved stA p).isSome = true := hsome1 ptd hty
            obtain ⟨hext2, hinv2, hsome2, hinh⟩ :=
              ihP ps stA _ st2 inh2 hinv1 h
            refine ⟨RExt_trans hext1 hext2, hinv2, ?_, ?_⟩
            · intro q hq
              rcases List.mem_cons.mp hq with rfl | hq'
              · exact lookupResolved_mono_isSome stA st2 hext2 q hps
              · exact hsome2 q hq'
            · rw [List.foldl_cons, hinh]
              have hgd : (lookupResolved stA p).getD ptd.fields =
                  (lookupResolved st2 p).getD [] := by
                obtain ⟨fl, hfl⟩ := Option.isSome_iff_exists.mp hps
                rw [hfl, lookupResolved_mono stA st2 hext2 p fl hfl]
                rfl
              rw [hgd]

theorem resolveAll_post (sch : Schema) (fuel : Nat) (as : List String) :
    ∀ st st', RInv sch st → resolveAll sch fuel as st = .ok st' →
      RExt st st' ∧ RInv sch st' ∧
      ∀ a ∈ as, ∀ td, sch.getType a = some td →
        (lookupResolved st' a).isSome = true := by
  induction as with
  | nil =>
    intro st st' hinv h
    rw [resolveAll] at h
    injection h with h
    subst h
    exact ⟨RExt_refl st, hinv, by simp⟩
  | cons a rest ih =>
    intro st st' hinv h
    rw [resolveAll] at h
    cases hrt : resolveType sch fuel a st with
    | error e =>
      rw [hrt] at h
      exact absurd h (by simp)
    | ok stA =>
      rw [hrt] at h
      dsimp only at h
      obtain ⟨hext1, hinv1, hsome1⟩ := (resolve_posts sch fuel).1 a st stA
        hinv hrt
      obtain ⟨hext2, hinv2, hsome2⟩ := ih stA st' hinv1 h
      refine ⟨RExt_trans hext1 hext2, hinv2, ?_⟩
      intro b hb td htd
      rcases List.mem_cons.mp hb with rfl | hb'
      · exact lookupResolved_mono_isSome stA st' hext2 b (hsome1 td htd)
      · exact hsome2 b hb' td htd

theorem find?_alias_of_mem_nodup (ts : List TypeDef)
    (hnd : (ts.map TypeDef.aliasName).Nodup) (td : TypeDef) (hmem : td ∈ ts) :
    ts.find? (fun t => t.aliasName = td.aliasName) = some td := by
  induction ts with
  | nil => simp at hmem
  | cons t rest ih =>
    rw [List.map_cons] at hnd
    rcases List.mem_cons.mp hmem with rfl | hmem'
    · rw [List.find?_cons_of_pos _ (by simp)]
    · have hne : t.aliasName ≠ td.aliasName := by
        have h1 : td.aliasName ∈ rest.map TypeDef.aliasName :=
          List.mem_map_of_mem _ hmem'
        have h2 := (List.nodup_cons.mp hnd).1
        intro he
        rw [he] at h2
        exact h2 h1
      rw [List.find?_cons_of_neg _ (by simp [hne])]
      exact ih (List.nodup_cons.mp hnd).2 hmem'

/-- Claim C4: for every schema whose inheritance resolution succeeds (so all
parents are defined and acyclic), every type's committed final field list
equals the claimed merge: the parents' final field lists folded in declared
order keeping only the first field of each name, then overlaid with the
type's own fields (same-named own fields replace in place, the rest are
appended); and every parent of the type has a committed final list. -/
theorem C4_inheritance_merge (sch : Schema) (fuel : Nat) (st : RState)
    (hnd : (sch.types.map TypeDef.aliasName).Nodup)
    (hok : resolveInheritance sch fuel = .ok st) :
    ∀ td ∈ sch.types,
      lookupResolved st td.aliasName =
        some (claimMergedFields
          (td.parents.map fun p => (lookupResolved st p).getD [])
          td.fields) ∧
      ∀ p ∈ td.parents, (lookupResolved st p).isSome = true := by
  rw [resolveInheritance] at hok
  have hinv0 : RInv sch ⟨[], [], []⟩ := by
    constructor
    · intro a ha
      simp at ha
    · intro a fl h
      simp [lookupResolved, List.find?] at h
  obtain ⟨hext, hinv, hsome⟩ := resolveAll_post sch fuel _ _ _ hinv0 hok
  intro td hmem
  have hty : sch.getType td.aliasName = some td :=
    find?_alias_of_mem_nodup sch.types hnd td hmem
  have hin : td.aliasName ∈ sch.types.map TypeDef.aliasName :=
    List.mem_map_of_mem _ hmem
  have hs := hsome td.aliasName hin td hty
  obtain ⟨fl, hfl⟩ := Option.isSome_iff_exists.mp hs
  obtain ⟨td', hty', heq, hpar⟩ := hinv.2 td.aliasName fl hfl
  rw [hty] at hty'
  injection hty' with hty''
  subst hty''
  exact ⟨by rw [hfl, heq], hpar⟩

/-- Witness for C4: in the fixture schema the child `C` of parents `P` and
`Q` resolves to the claimed merge of its parents' final lists with its own
fields. -/
theorem C4_inheritance_merge_witness :
    lookupResolved rstInh tdC.aliasName =
      some (claimMergedFields
        (tdC.parents.map fun p => (lookupResolved rstInh p).getD [])
        tdC.fields) :=
  (C4_inheritance_merge schInh 10 rstInh (by decide) rfl tdC (by decide)).1

theorem bucketTagCount_cons (q : String × List Nat)
    (bs : List (String × List Nat)) (t : Nat) :
    bucketTagCount (q :: bs) t = q.2.count t + bucketTagCount bs t := by
  simp [bucketTagCount]

theorem find?_bucketUpdate (bs : List (String × List Nat)) (a a' : String)
    (t : Nat) :
    (bs.map (fun p => if p.1 = a then (p.1, p.2 ++ [t]) else p)).find?
        (fun p => p.1 = a') =
      (bs.find? (fun p => p.1 = a')).map
        (fun p => if p.1 = a then (p.1, p.2 ++ [t]) else p) := by
  induction bs with
  | nil => rfl
  | cons q bs ih =>
    rw [List.map_cons]
    by_cases hq : q.1 = a'
    · have hkey : (if q.1 = a then (q.1, q.2 ++ [t]) else q).1 = a' := by
        by_cases hqa : q.1 = a
        · rw [if_pos hqa]
          exact hq
        · rw [if_neg hqa]
          exact hq
      rw [List.find?_cons_of_pos _ (by simp [hkey]),
        List.find?_cons_of_pos _ (by simp [hq])]
      rfl
    · have hkey : ¬(if q.1 = a then (q.1, q.2 ++ [t]) else q).1 = a' := by
        by_cases hqa : q.1 = a
        · rw [if_pos hqa]
          exact hq
        · rw [if_neg hqa]
          exact hq
      rw [List.find?_cons_of_neg _ (by simp [hkey]),
        List.find?_cons_of_neg _ (by simp [hq])]
      exact ih

theorem bucketAdd_keys (bs : List (String × List Nat)) (a : String) (t : Nat)
    (hnd : (bs.map Prod.fst).Nodup) :
    ((bucketAdd bs a t).map Prod.fst).Nodup := by
  rw [bucketAdd]
  by_cases hany : bs.any (fun p => p.1 = a) = true
  · rw [if_pos hany]
    have hkeys : (bs.map (fun p =>
        if p.1 = a then (p.1, p.2 ++ [t]) else p)).map Prod.fst =
        bs.map Prod.fst := by
      rw [List.map_map]
      apply List.map_congr_left
      intro p _
      by_cases hp : p.1 = a <;> simp [Function.comp, hp]
    rw [hkeys]
    exact hnd
  · rw [if_neg hany]
    have hna : a ∉ bs.map Prod.fst := by
      intro hmem
      obtain ⟨p, hp, hpa⟩ := List.mem_map.mp hmem
      exact hany (List.any_eq_true.mpr ⟨p, hp, by simp [hpa]⟩)
    rw [List.map_append]
    simp only [List.map_cons, List.map_nil]
    rw [List.nodup_append]
    exact ⟨hnd, List.nodup_singleton a, by
      intro x hx hx1
      rw [List.mem_singleton] at hx1
      exact hna (hx1 ▸ hx)⟩

theorem bucketLookup_bucketAdd_cases (bs : List (String × List Nat))
    (a : String) (t : Nat) (a' : String) (t' : Nat)
    (h : t' ∈ bucketLookup (bucketAdd bs a t) a') :
    t' ∈ bucketLookup bs a' ∨ (a' = a ∧ t' = t) := by
  rw [bucketAdd] at h
  by_cases hany : bs.any (fun p => p.1 = a) = true
  · rw [if_pos hany] at h
    rw [bucketLookup] at h ⊢
    rw [find?_bucketUpdate] at h
    revert h
    cases hf : bs.find? (fun p => p.1 = a') with
    | none =>
      intro h
      simp at h
    | some pr =>
      intro h
      by_cases hpa : pr.1 = a
      · have h2 : t' ∈ pr.2 ++ [t] := by simpa [hpa] using h
        rcases List.mem_append.mp h2 with h' | h'
        · exact Or.inl (by simpa using h')
        · right
          have hpk : pr.1 = a' := by simpa using List.find?_some hf
          exact ⟨by rw [← hpk, hpa], by simpa using h'⟩
      · have h2 : t' ∈ pr.2 := by simpa [hpa] using h
        exact Or.inl (by simpa using h2)
  · rw [if_neg hany] at h
    rw [bucketLookup] at h ⊢
    revert h
    cases hf : bs.find? (fun p => p.1 = a') with
    | some pr =>
      intro h
      rw [find?_append_of_some _ _ _ _ hf] at h
      exact Or.inl h
    | none =>
      intro h
      rw [find?_append_of_none _ _ _ hf] at h
      by_cases haa : a = a'
      · rw [List.find?_cons_of_pos _ (by simp [haa])] at h
        refine Or.inr ⟨haa.symm, ?_⟩
        simpa using h
      · rw [List.find?_cons_of_neg _ (by simp [haa])] at h
        simp at h

theorem bucketTagCount_update (a : String) (t s : Nat) :
    ∀ bs : List (String × List Nat), (bs.map Prod.fst).Nodup →
      bs.any (fun p => p.1 = a) = true →
      bucketTagCount
        (bs.map (fun p => if p.1 = a then (p.1, p.2 ++ [t]) else p)) s =
        bucketTagCount bs s + (if s = t then 1 else 0) := by
  intro bs
  induction bs with
  | nil =>
    intro _ hany
    simp at hany
  | cons q bs ih =>
    intro hnd hany
    rw [List.map_cons] at hnd
    rw [List.map_cons]
    by_cases hq : q.1 = a
    · rw [if_pos hq]
      have hkeys := (List.nodup_cons.mp hnd).1
      have hrest : bs.map (fun p =>
          if p.1 = a then (p.1, p.2 ++ [t]) else p) = bs := by
        have hmid : bs.map (fun p =>
            if p.1 = a then (p.1, p.2 ++ [t]) else p) = bs.map id := by
          apply List.map_congr_left
          intro p hp
          have hpa : p.1 ≠ a := by
            intro he
            apply hkeys
            rw [hq]
            exact he ▸ List.mem_map_of_mem Prod.fst hp
          simp [hpa]
        rw [hmid, List.map_id]
      rw [hrest, bucketTagCount_cons, bucketTagCount_cons]
      dsimp only
      rw [List.count_append]
      have hsing : [t].count s = if s = t then 1 else 0 := by
        by_cases hst : s = t
        · subst hst
          simp
        · rw [if_neg hst]
          exact List.count_eq_zero.mpr (by simp [hst])
      rw [hsing]
      omega
    · rw [if_neg hq]
      have hany' : bs.any (fun p => p.1 = a) = true := by
        rw [List.any_cons] at hany
        simpa [hq] using hany
      rw [bucketTagCount_cons, bucketTagCount_cons,
        ih (List.nodup_cons.mp hnd).2 hany']
      omega

theorem bucketTagCount_bucketAdd (bs : List (String × List Nat)) (a : String)
    (t : Nat) (hnd : (bs.map Prod.fst).Nodup) (s : Nat) :
    bucketTagCount (bucketAdd bs a t) s =
      bucketTagCount bs s + (if s = t then 1 else 0) := by
  rw [bucketAdd]
  by_cases hany : bs.any (fun p => p.1 = a) = true
  · rw [if_pos hany]
    exact bucketTagCount_update a t s bs hnd hany
  · rw [if_neg hany]
    have hsing : [t].count s = if s = t then 1 else 0 := by
      by_cases hst : s = t
      · subst hst
        simp
      · rw [if_neg hst]
        exact List.count_eq_zero.mpr (by simp [hst])
    simp only [bucketTagCount, List.map_append, List.sum_append,
      List.map_cons, List.map_nil, List.sum_cons, List.sum_nil]
    rw [hsing]
    omega

theorem bucketTagCount_pos_mem (t : Nat) :
    ∀ bs : List (String × List Nat), bucketTagCount bs t ≠ 0 →
      ∃ p ∈ bs, t ∈ p.2 := by
  intro bs
  induction bs with
  | nil =>
    intro h
    simp [bucketTagCount] at h
  | cons q bs ih =>
    intro h
    rw [bucketTagCount_cons] at h
    by_cases hq : q.2.count t = 0
    · rw [hq] at h
      obtain ⟨p, hp, hpt⟩ := ih (by omega)
      exact ⟨p, by simp [hp], hpt⟩
    · refine ⟨q, by simp, ?_⟩
      have := Nat.pos_of_ne_zero hq
      exact List.count_pos_iff_mem.mp this

theorem promoteItem_inv (types : List TypeDef) (heap : JHeap)
    (buckets0 : List (String × List Nat)) (nt : TypeDef) (idF : FieldDef)
    (hfind : findTypeByAlias types nt.aliasName = some nt)
    (hid : hasIdFieldNamed nt = some idF) (st : CState) (item : JVal)
    (hinv : CInv types heap buckets0 st) :
    CInv types heap buckets0
      (promoteItem heap nt.aliasName idF.name st item) := by
  obtain ⟨h1, h2, h3, h4⟩ := hinv
  cases item with
  | ref t =>
    rw [promoteItem]
    by_cases hseen : t ∈ st.seen
    · rw [if_pos hseen]
      exact ⟨h1, h2, h3, h4⟩
    · rw [if_neg hseen]
      by_cases hsome : (lookupJ (heap t) idF.name).isSome = true
      · rw [if_pos hsome]
        refine ⟨bucketAdd_keys _ _ _ h1, ?_, ?_, ?_⟩
        · intro a u hu
          rcases bucketLookup_bucketAdd_cases _ _ _ _ _ hu
            with hold | ⟨rfl, rfl⟩
          · exact h2 a u hold
          · exact Or.inr ⟨nt, hfind, idF, hid, hsome⟩
        · intro u
          rw [bucketTagCount_bucketAdd _ _ _ h1 u]
          by_cases hut : u = t
          · subst hut
            rw [h4 u hseen]
            simp [le_max_right]
          · rw [if_neg hut]
            simpa using h3 u
        · intro u hu
          rw [bucketTagCount_bucketAdd _ _ _ h1 u]
          have hu1 : u ∉ st.seen := fun hc => hu (by simp [hc])
          have hu2 : ¬u = t := fun hc => hu (by simp [hc])
          rw [h4 u hu1, if_neg hu2]
      · rw [if_neg hsome]
        exact ⟨h1, h2, h3, h4⟩
  | undef => exact ⟨h1, h2, h3, h4⟩
  | jnull => exact ⟨h1, h2, h3, h4⟩
  | jbool b => exact ⟨h1, h2, h3, h4⟩
  | jnum q => exact ⟨h1, h2, h3, h4⟩
  | jstr s => exact ⟨h1, h2, h3, h4⟩
  | arr l => exact ⟨h1, h2, h3, h4⟩

theorem foldl_promoteItem_inv (types : List TypeDef) (heap : JHeap)
    (buckets0 : List (String × List Nat)) (nt : TypeDef) (idF : FieldDef)
    (hfind : findTypeByAlias types nt.aliasName = some nt)
    (hid : hasIdFieldNamed nt = some idF) (items : List JVal) :
    ∀ st, CInv types heap buckets0 st →
      CInv types heap buckets0
        (items.foldl (promoteItem heap nt.aliasName idF.name) st) := by
  induction items with
  | nil => intro st h; exact h
  | cons i items ih =>
    intro st h
    rw [List.foldl_cons]
    exact ih _ (promoteItem_inv types heap buckets0 nt idF hfind hid st i h)

theorem processField_inv (types : List TypeDef) (heap : JHeap)
    (buckets0 : List (String × List Nat)) (obj : List (String × JVal))
    (field : FieldDef) :
    ∀ st, CInv types heap buckets0 st →
      CInv types heap buckets0 (processField types heap obj st field) := by
  intro st h
  rw [processField]
  dsimp only
  by_cases hv : isObjectLike ((lookupJ obj field.name).getD .undef) = true
  · rw [if_pos hv]
    cases hte : field.typeExpr with
    | none => exact h
    | some te =>
      dsimp only
      by_cases hbt : String.mk (stripArraySuffix te.data) = ""
      · rw [if_pos hbt]
        exact h
      · rw [if_neg hbt]
        cases hfb : findTypeByAlias types
            (String.mk (stripArraySuffix te.data)) with
        | none => exact h
        | some nt =>
          dsimp only
          cases hidf : hasIdFieldNamed nt with
          | none => exact h
          | some idF =>
            dsimp only
            have hba : nt.aliasName = String.mk (stripArraySuffix te.data) := by
              simpa using List.find?_some hfb
            have hfind : findTypeByAlias types nt.aliasName = some nt := by
              rw [hba]
              exact hfb
            exact foldl_promoteItem_inv types heap buckets0 nt idF hfind
              hidf _ _ h
  · rw [if_neg hv]
    exact h

theorem foldl_processField_inv (types : List TypeDef) (heap : JHeap)
    (buckets0 : List (String × List Nat)) (obj : List (String × JVal))
    (fs : List FieldDef) :
    ∀ st, CInv types heap buckets0 st →
      CInv types heap buckets0 (fs.foldl (processField types heap obj) st) := by
  induction fs with
  | nil => intro st h; exact h
  | cons f fs ih =>
    intro st h
    rw [List.foldl_cons]
    exact ih _ (processField_inv types heap buckets0 obj f st h)

theorem processWorkItem_inv (types : List TypeDef) (heap : JHeap)
    (buckets0 : List (String × List Nat)) (wi : String × Nat) :
    ∀ st, CInv types heap buckets0 st →
      CInv types heap buckets0 (processWorkItem types heap st wi) := by
  intro st h
  rw [processWorkItem]
  cases hfb : findTypeByAlias types wi.1 with
  | none => exact h
  | some td =>
    dsimp only
    exact foldl_processField_inv types heap buckets0 (heap wi.2) td.fields
      st h

theorem collectLoop_inv (types : List TypeDef) (heap : JHeap)
    (buckets0 : List (String × List Nat)) (fuel : Nat) :
    ∀ st, CInv types heap buckets0 st →
      CInv types heap buckets0 (collectLoop types heap fuel st) := by
  induction fuel with
  | zero => intro st h; exact h
  | succ fuel ih =>
    intro st h
    rw [collectLoop]
    cases hw : st.work with
    | nil => exact h
    | cons wi rest =>
      dsimp only
      exact ih _ (processWorkItem_inv types heap buckets0 wi _ h)

theorem seedRows_buckets (a : String) (ts : List Nat) :
    ∀ st, (seedRows a ts st).buckets = st.buckets := by
  induction ts with
  | nil => intro st; rfl
  | cons t ts ih =>
    intro st
    rw [seedRows]
    by_cases hs : t ∈ st.seen
    · rw [if_pos hs]
      exact ih st
    · rw [if_neg hs]
      exact ih _

theorem seedAll_buckets (ps : List (String × List Nat)) :
    ∀ st, (seedAll ps st).buckets = st.buckets := by
  induction ps with
  | nil => intro st; rfl
  | cons p ps ih =>
    intro st
    rw [seedAll, ih _, seedRows_buckets]

theorem seedRows_seen_mono (a : String) (ts : List Nat) :
    ∀ st u, u ∈ st.seen → u ∈ (seedRows a ts st).seen := by
  induction ts with
  | nil => intro st u h; exact h
  | cons t ts ih =>
    intro st u h
    rw [seedRows]
    by_cases hs : t ∈ st.seen
    · rw [if_pos hs]
      exact ih st u h
    · rw [if_neg hs]
      exact ih _ u (by simp [h])

theorem seedRows_seen_mem (a : String) (ts : List Nat) :
    ∀ st u, u ∈ ts → u ∈ (seedRows a ts st).seen := by
  induction ts with
  | nil =>
    intro st u h
    simp at h
  | cons t ts ih =>
    intro st u h
    rw [seedRows]
    rcases List.mem_cons.mp h with rfl | h'
    · by_cases hs : u ∈ st.seen
      · rw [if_pos hs]
        exact seedRows_seen_mono a ts st u hs
      · rw [if_neg hs]
        exact seedRows_seen_mono a ts _ u (by simp)
    · by_cases hs : t ∈ st.seen
      · rw [if_pos hs]
        exact ih st u h'
      · rw [if_neg hs]
        exact ih _ u h'

theorem seedAll_seen_mono (ps : List (String × List Nat)) :
    ∀ st u, u ∈ st.seen → u ∈ (seedAll ps st).seen := by
  induction ps with
  | nil => intro st u h; exact h
  | cons p ps ih =>
    intro st u h
    rw [seedAll]
    exact ih _ u (seedRows_seen_mono p.1 p.2 st u h)

theorem seedAll_seen_mem (ps : List (String × List Nat)) :
    ∀ st p, p ∈ ps → ∀ u ∈ p.2, u ∈ (seedAll ps st).seen := by
  induction ps with
  | nil =>
    intro st p h
    simp at h
  | cons q ps ih =>
    intro st p h u hu
    rw [seedAll]
    rcases List.mem_cons.mp h with rfl | h'
    · exact seedAll_seen_mono ps _ u (seedRows_seen_mem p.1 p.2 st u hu)
    · exact ih _ p h' u hu

theorem seedState_inv (types : List TypeDef) (heap : JHeap)
    (buckets0 : List (String × List Nat))
    (hnd : (buckets0.map Prod.fst).Nodup) :
    CInv types heap buckets0 (seedState buckets0) := by
  have hb : (seedState buckets0).buckets = buckets0 := by
    rw [seedState, seedAll_buckets]
  refine ⟨?_, ?_, ?_, ?_⟩
  · rw [hb]
    exact hnd
  · intro a t h
    rw [hb] at h
    exact Or.inl h
  · intro t
    rw [hb]
    exact le_max_left _ _
  · intro t ht
    rw [hb]
    by_contra hc
    obtain ⟨p, hp, hpt⟩ := bucketTagCount_pos_mem t buckets0 hc
    exact ht (seedAll_seen_mem buckets0 _ p hp t hpt)

/-- Claim C2 counterexample: in the `A`/`B` fixture, object 1 has an `id`
property whose value is `null`, yet it is promoted into the top-level `B`
bucket (the code only requires the property to be non-`undefined`); in the
`C`/`D` fixture, type `D` has an identifier field in the
`MaxiTypeDef.getIdField` sense (an `id`-constrained field named `key`) and
object 3 carries a non-null `key`, yet it is not promoted — the promotion
path looks only for a field literally named `id`. Both directions of the
claim's promotion condition are therefore false. -/
theorem C2_counterexample :
    (collectReferenced typesAB heapAB [("A", [0])] 10).buckets =
      [("A", [0]), ("B", [1])] ∧
    lookupJ (heapAB 1) "id" = some .jnull ∧
    (collectReferenced typesCD heapCD [("C", [2])] 10).buckets =
      [("C", [2])] ∧
    TypeDef.getIdField
        { aliasName := "D",
          fields := [{ name := "key", constraints := [.id] }] } =
      some { name := "key", constraints := [.id] } ∧
    lookupJ (heapCD 3) "key" = some (.jstr "x") :=
  ⟨rfl, rfl, rfl, rfl, rfl⟩

/-- Claim C2 (amended): during reference collection over seeded buckets with
unique aliases, every row of the final buckets is either an original seeded
row or an object satisfying the code's promotion condition — the bucket's
alias names a known type having a field literally named `id`, and the object
carries that property with any non-`undefined` value (`null` included); and
each distinct object is promoted at most once even across shared references:
a tag's final multiplicity never exceeds its seeded multiplicity, or one if
it was not seeded at all. -/
theorem C2_promotion (types : List TypeDef) (heap : JHeap)
    (buckets0 : List (String × List Nat)) (fuel : Nat)
    (hnd : (buckets0.map Prod.fst).Nodup) :
    (∀ a t, t ∈ bucketLookup
        (collectReferenced types heap buckets0 fuel).buckets a →
      t ∈ bucketLookup buckets0 a ∨ promotable types heap a t) ∧
    (∀ t, bucketTagCount
        (collectReferenced types heap buckets0 fuel).buckets t ≤
      max (bucketTagCount buckets0 t) 1) := by
  have h := collectLoop_inv types heap buckets0 fuel _
    (seedState_inv types heap buckets0 hnd)
  exact ⟨h.2.1, h.2.2.1⟩

/-- Witness for C2 (amended): in the `A`/`B` fixture run, the promoted
object 1 occurs at most once across the final buckets. -/
theorem C2_promotion_witness :
    bucketTagCount
        (collectReferenced typesAB heapAB [("A", [0])] 10).buckets 1 ≤
      max (bucketTagCount [("A", [0])] 1) 1 :=
  (C2_promotion typesAB heapAB [("A", [0])] 10 (by decide)).2 1

end Maxi
